import Mathlib

/-!
Verification of the nexus-forge conversion and reshaping core.

The development shallowly embeds:
  * the resource-tree data model (spec section 3; the Resource class itself is not
    among the provided sources, so it is modelled from the spec),
  * the path-based reshaper `Reshaper._reshape` / `_reshape_many` and the
    leaf-value collector `collect_values` (kgforge/core/reshaping.py),
  * the table codec `as_dataframe` / `from_dataframe` (spec section 4.1; the
    implementation file kgforge/core/conversions/dataframe.py is not among the
    provided sources, so it is modelled from the spec).
-/

namespace NexusForge

/-- Scalar values: strings, integers and booleans, as they appear in resource
trees and in table cells. -/
inductive SVal where
  | s : String → SVal
  | i : Int → SVal
  | b : Bool → SVal
deriving DecidableEq, Repr

/-- Modelled from the spec: the Resource class is not among the provided
sources.  Per spec section 3, a resource tree carries non-data metadata fields
`synchronized`, `last_action`, `store_metadata` and the store-assigned
validation flag, kept apart from the ordered data fields (spec section 9
mandates an explicit ordered-mapping abstraction). -/
structure RMeta where
  synchronized : Bool
  validated : Bool
  lastAction : Option String
  storeMetadata : Option (List (String × SVal))
deriving DecidableEq, Repr

/-- The default (freshly-constructed) metadata state: unsynchronized,
unvalidated, no pending action, no store metadata. -/
def defaultMeta : RMeta := ⟨false, false, none, none⟩

/-- Field values of a resource tree: a scalar, null, a nested resource
(metadata plus ordered fields), or an ordered sequence of values. -/
inductive Val : Type where
  | scalar : SVal → Val
  | null : Val
  | res : RMeta → List (String × Val) → Val
  | list : List Val → Val

/-- The ordered data fields of a resource tree. -/
abbrev Fields := List (String × Val)

/-- Modelled from the spec: a resource, i.e. ordered data fields plus the
reserved metadata (spec section 3). -/
structure Resource where
  meta : RMeta
  fields : Fields

/-- View a resource as a value (for nesting and for uniform recursion). -/
def Resource.toVal (r : Resource) : Val := .res r.meta r.fields

/-- First-occurrence lookup of a data field, mirroring Python attribute lookup
on a resource's `__dict__`. -/
def lookupF : Fields → String → Option Val
  | [], _ => none
  | (k', v) :: fs, k => if k' = k then some v else lookupF fs k

/-- `getattr(resource, name)`: data-field lookup; fails (None here) on
non-resources and missing fields. -/
def getattr : Val → String → Option Val
  | .res _ fs, k => lookupF fs k
  | _, _ => none

/-- The keys of a field list, in order. -/
def keysF (fs : Fields) : List String := fs.map (fun kv => kv.1)

/-- The reshaper's error: `getattr` raising `AttributeError` for a missing
field (the spec's `UnknownField`), carrying the missing name. -/
inductive RErr where
  | unknownField : String → RErr
deriving DecidableEq, Repr

/-- Split a character list at the first `.`, if any (`str.split(".", 1)`). -/
def split1Chars : List Char → Option (List Char × List Char)
  | [] => none
  | c :: cs =>
    if c = '.' then some ([], cs)
    else (split1Chars cs).map (fun p => (c :: p.1, p.2))

/-- `path.split(".", maxsplit=1)` as in `Reshaper._reshape`: the root segment
and, when a dot occurs, the remainder. -/
def split1 (s : String) : String × Option String :=
  match split1Chars s.data with
  | none => (s, none)
  | some (a, b) => (⟨a⟩, some ⟨b⟩)

/-- Deduplicate a list keeping first occurrences, in first-encounter order
(the deterministic order this embedding fixes for the source's set of roots). -/
def dedupFirst {α : Type} [DecidableEq α] : List α → List α
  | [] => []
  | x :: xs => x :: dedupFirst (xs.filter (fun y => y ≠ x))
termination_by xs => xs.length
decreasing_by
  simp only [List.length_cons]
  exact Nat.lt_succ_of_le (List.length_filter_le _ _)

/-- The leaf paths grouped under one root:
`[x[1] for x in levels if len(x) > 1 and x[0] == root]`. -/
def leafsFor (levels : List (String × Option String)) (root : String) : List String :=
  levels.filterMap (fun p => if p.1 = root then p.2 else none)

/-- A version template (`versioned_id_template`), embedded structurally: a
format string is a sequence of literal parts and field references on the
substitution subject `x`. -/
inductive TPart where
  | lit : String → TPart
  | field : String → TPart

/-- A format string with `x` as its sole substitution subject. -/
abbrev Template := List TPart

/-- Rendering of a value substituted into a format string (Python `str()`
of the field's value; only scalar fields are rendered meaningfully). -/
def renderScalar : Val → String
  | .scalar (.s v) => v
  | .scalar (.i n) => toString n
  | .scalar (.b true) => "True"
  | .scalar (.b false) => "False"
  | .null => "None"
  | .res _ _ => ""
  | .list _ => ""

/-- `template.format(x=resource)`: substitute each field reference by the
referenced field of `x`; a missing field raises `AttributeError`
(`unknownField`), as Python attribute access does. -/
def formatT (tpl : Template) (x : Val) : Except RErr String :=
  match tpl with
  | [] => .ok ""
  | .lit s :: rest => (formatT rest x).map (fun t => s ++ t)
  | .field a :: rest =>
    match getattr x a with
    | some v => (formatT rest x).map (fun t => renderScalar v ++ t)
    | none => .error (.unknownField a)

mutual

/-- `Reshaper._reshape` (kgforge/core/reshaping.py, lines 48-71): split every
kept path into root and remainder, and rebuild a fresh resource from the
per-root results.  The fresh resource always carries `defaultMeta`. -/
def reshapeOne (tpl : Template) (x : Val) (keep : List String) (versioned : Bool) :
    Except RErr Resource :=
  let levels := keep.map split1
  let roots := dedupFirst (levels.map (fun p => p.1))
  (reshapeRoots tpl x levels roots versioned).map (fun fs => ⟨defaultMeta, fs⟩)
termination_by (sizeOf x, keep.length + 1)
decreasing_by
  apply Prod.Lex.right
  have h1 : ∀ (ys : List String), (dedupFirst ys).length ≤ ys.length := by
    intro ys
    induction ys using dedupFirst.induct with
    | case1 => simp [dedupFirst]
    | case2 x xs ih =>
      rw [dedupFirst]
      simp only [List.length_cons]
      have := List.length_filter_le (fun y => decide (y ≠ x)) xs
      omega
  have h2 := h1 ((keep.map split1).map (fun p => p.1))
  simp only [List.length_map] at h2
  omega

/-- The `for root in roots` loop of `Reshaper._reshape`: build the output
fields, one per distinct root, in root order. -/
def reshapeRoots (tpl : Template) (x : Val) (levels : List (String × Option String))
    (roots : List String) (versioned : Bool) : Except RErr Fields :=
  match roots with
  | [] => .ok []
  | root :: rest => do
    let nv ← rootResult tpl x levels root versioned
    let restF ← reshapeRoots tpl x levels rest versioned
    .ok ((root, nv) :: restF)
termination_by (sizeOf x, roots.length)
decreasing_by
  · apply Prod.Lex.right
    simp
  · apply Prod.Lex.right
    simp

/-- The body of `Reshaper._reshape`'s loop for one root: look the root up
(`AttributeError` when absent), then reshape lists elementwise, recurse into a
nested resource when leaf paths remain, shallow-copy it (dropping the reserved
metadata) when none do, and version or copy a scalar. -/
def rootResult (tpl : Template) (x : Val) (levels : List (String × Option String))
    (root : String) (versioned : Bool) : Except RErr Val :=
  match _h : getattr x root with
  | none => .error (.unknownField root)
  | some (.list es) =>
    (reshapeMany tpl es (leafsFor levels root) versioned).map
      (fun rs => .list (rs.map Resource.toVal))
  | some (.res m gs) =>
    if (leafsFor levels root).isEmpty then
      .ok (.res defaultMeta gs)
    else
      (reshapeOne tpl (.res m gs) (leafsFor levels root) versioned).map Resource.toVal
  | some w =>
    if root = "id" ∧ versioned then
      (formatT tpl x).map (fun s => .scalar (.s s))
    else
      .ok w
termination_by (sizeOf x, 0)
decreasing_by
  · apply Prod.Lex.left
    have key : ∀ (fs : Fields) (k : String) (v : Val),
        lookupF fs k = some v → sizeOf v < sizeOf fs := by
      intro fs
      induction fs with
      | nil => intro k v h; simp [lookupF] at h
      | cons kv fs ih =>
        intro k v h
        obtain ⟨k', w⟩ := kv
        simp only [lookupF] at h
        split at h
        · cases h
          simp only [List.cons.sizeOf_spec, Prod.mk.sizeOf_spec]
          omega
        · have := ih k v h
          simp only [List.cons.sizeOf_spec, Prod.mk.sizeOf_spec]
          omega
    have key2 : sizeOf (Val.list es) < sizeOf x := by
      cases x with
      | res m fs =>
        simp only [getattr] at _h
        have := key fs root _ _h
        simp only [Val.res.sizeOf_spec]
        omega
      | scalar s => simp [getattr] at _h
      | null => simp [getattr] at _h
      | list xs => simp [getattr] at _h
    simp only [Val.list.sizeOf_spec] at key2
    omega
  · apply Prod.Lex.left
    have key : ∀ (fs : Fields) (k : String) (v : Val),
        lookupF fs k = some v → sizeOf v < sizeOf fs := by
      intro fs
      induction fs with
      | nil => intro k v h; simp [lookupF] at h
      | cons kv fs ih =>
        intro k v h
        obtain ⟨k', w⟩ := kv
        simp only [lookupF] at h
        split at h
        · cases h
          simp only [List.cons.sizeOf_spec, Prod.mk.sizeOf_spec]
          omega
        · have := ih k v h
          simp only [List.cons.sizeOf_spec, Prod.mk.sizeOf_spec]
          omega
    cases x with
    | res m2 fs =>
      simp only [getattr] at _h
      have := key fs root _ _h
      have h3 : sizeOf fs ≤ sizeOf (Val.res m2 fs) := by
        simp only [Val.res.sizeOf_spec]
        omega
      omega
    | scalar s => simp [getattr] at _h
    | null => simp [getattr] at _h
    | list xs => simp [getattr] at _h

/-- `Reshaper._reshape_many` (lines 40-43): reshape each element of a list
with the same kept paths, preserving length and order. -/
def reshapeMany (tpl : Template) (xs : List Val) (keep : List String) (versioned : Bool) :
    Except RErr (List Resource) :=
  match xs with
  | [] => .ok []
  | e :: es => do
    let r ← reshapeOne tpl e keep versioned
    let rs ← reshapeMany tpl es keep versioned
    .ok (r :: rs)
termination_by (sizeOf xs, keep.length + 2)
decreasing_by
  · apply Prod.Lex.left
    simp only [List.cons.sizeOf_spec]
    omega
  · apply Prod.Lex.left
    simp only [List.cons.sizeOf_spec]
    omega

end

/-- A resource or a list of resources (`Union[Resource, List[Resource]]`). -/
inductive RData where
  | one : Resource → RData
  | many : List Resource → RData

/-- `Reshaper.reshape` (lines 33-38): dispatch on one resource versus many. -/
def reshape (tpl : Template) (data : RData) (keep : List String) (versioned : Bool) :
    Except RErr RData :=
  match data with
  | .one r => (reshapeOne tpl r.toVal keep versioned).map RData.one
  | .many rs => (reshapeMany tpl (rs.map Resource.toVal) keep versioned).map RData.many

/-- Plain JSON-like values, the "plain nested-map form" of a resource. -/
inductive JVal where
  | s : String → JVal
  | i : Int → JVal
  | b : Bool → JVal
  | null : JVal
  | obj : List (String × JVal) → JVal
  | arr : List JVal → JVal

mutual

/-- Modelled from the spec: `as_json(_, expanded=False, store_metadata=False)`
(kgforge/core/conversions/json.py is not among the provided sources) converts
a resource into its plain nested-map form (spec section 4.3): fields become
dict entries, nested resources become dicts, sequences become arrays. -/
def asJson : Val → JVal
  | .scalar (.s v) => .s v
  | .scalar (.i n) => .i n
  | .scalar (.b v) => .b v
  | .null => .null
  | .res _ fs => .obj (asJsonF fs)
  | .list xs => .arr (asJsonL xs)
termination_by x => sizeOf x
decreasing_by
  · simp only [Val.res.sizeOf_spec]
    omega
  · simp only [Val.list.sizeOf_spec]
    omega

/-- Field-wise part of `asJson`. -/
def asJsonF : List (String × Val) → List (String × JVal)
  | [] => []
  | (k, v) :: fs => (k, asJson v) :: asJsonF fs
termination_by fs => sizeOf fs
decreasing_by
  · simp only [List.cons.sizeOf_spec, Prod.mk.sizeOf_spec]
    omega
  · simp only [List.cons.sizeOf_spec]
    omega

/-- Element-wise part of `asJson`. -/
def asJsonL : List Val → List JVal
  | [] => []
  | v :: vs => asJson v :: asJsonL vs
termination_by vs => sizeOf vs
decreasing_by
  · simp only [List.cons.sizeOf_spec]
    omega
  · simp only [List.cons.sizeOf_spec]
    omega

end

mutual

/-- `_collect` (kgforge/core/reshaping.py, lines 77-86), iterating over a list
of JSON things: non-dict elements are skipped; for a dict, each value is
recursed into when it is a list or a dict and yielded otherwise. -/
def collectL : List JVal → List JVal
  | [] => []
  | .obj fs :: xs => collectF fs ++ collectL xs
  | _ :: xs => collectL xs
termination_by xs => sizeOf xs
decreasing_by
  · simp only [List.cons.sizeOf_spec, JVal.obj.sizeOf_spec]
    omega
  · simp only [List.cons.sizeOf_spec]
    omega
  · simp only [List.cons.sizeOf_spec]
    omega

/-- The `for k, v in x.items()` part of `_collect`. -/
def collectF : List (String × JVal) → List JVal
  | [] => []
  | (_, .arr ys) :: fs => collectL ys ++ collectF fs
  | (_, .obj gs) :: fs => collectL [.obj gs] ++ collectF fs
  | (_, v) :: fs => v :: collectF fs
termination_by fs => sizeOf fs
decreasing_by
  · simp only [List.cons.sizeOf_spec, Prod.mk.sizeOf_spec, JVal.arr.sizeOf_spec]
    omega
  · simp only [List.cons.sizeOf_spec]
    omega
  · have hfs : 0 < sizeOf fs := by
      cases fs
      · simp only [List.nil.sizeOf_spec]
        omega
      · simp only [List.cons.sizeOf_spec]
        omega
    simp only [List.cons.sizeOf_spec, List.nil.sizeOf_spec, Prod.mk.sizeOf_spec,
      JVal.obj.sizeOf_spec]
    omega
  · simp only [List.cons.sizeOf_spec]
    omega
  · simp only [List.cons.sizeOf_spec]
    omega

end

/-- `jsoned if isinstance(jsoned, List) else [jsoned]`: the list of plain
nested-map forms the collector walks. -/
def preparedJson : RData → List JVal
  | .one r => [asJson r.toVal]
  | .many rs => rs.map (fun r => asJson r.toVal)

/-- `collect_values` (kgforge/core/reshaping.py, lines 75-94): reshape along
one path with an empty version template, convert to the plain nested-map form,
walk it with `_collect`, and translate an `AttributeError` into the
caller-chosen error kind. -/
def collect_values {E : Type} (data : RData) (follow : String) (exc : String → E) :
    Except E (List JVal) :=
  match reshape [] data [follow] false with
  | .error (.unknownField _) => .error (exc "path to follow is incorrect")
  | .ok reshaped => .ok (collectL (preparedJson reshaped))

mutual

/-- Modelled from the spec: the walk claimed in spec section 4.3, "recursively
walking all dict/array structures collecting every scalar leaf value
encountered (depth-unbounded, order = depth-first left-to-right)".  Stated
separately from the source's `_collect` so the two can be compared. -/
def specWalk : JVal → List JVal
  | .obj fs => specWalkF fs
  | .arr xs => specWalkL xs
  | v => [v]
termination_by x => sizeOf x
decreasing_by
  · simp only [JVal.obj.sizeOf_spec]
    omega
  · simp only [JVal.arr.sizeOf_spec]
    omega

/-- Field part of `specWalk`. -/
def specWalkF : List (String × JVal) → List JVal
  | [] => []
  | (_, v) :: fs => specWalk v ++ specWalkF fs
termination_by fs => sizeOf fs
decreasing_by
  · simp only [List.cons.sizeOf_spec, Prod.mk.sizeOf_spec]
    omega
  · simp only [List.cons.sizeOf_spec]
    omega

/-- Element part of `specWalk`. -/
def specWalkL : List JVal → List JVal
  | [] => []
  | v :: vs => specWalk v ++ specWalkL vs
termination_by vs => sizeOf vs
decreasing_by
  · simp only [List.cons.sizeOf_spec]
    omega
  · simp only [List.cons.sizeOf_spec]
    omega

end

/-- Modelled from the spec: `collect_values` as the spec's section 4.3 words
describe it, identical to the source pipeline except that the final walk
collects every scalar leaf value encountered, including scalars that are
direct elements of arrays. -/
def spec_collect_values {E : Type} (data : RData) (follow : String) (exc : String → E) :
    Except E (List JVal) :=
  match reshape [] data [follow] false with
  | .error (.unknownField _) => .error (exc "path to follow is incorrect")
  | .ok reshaped => .ok (specWalkL (preparedJson reshaped))

/-- Modelled from the spec (section 4.1): with `expanded` true the reserved
keys are emitted with a sigil prefix (`@id`, `@type`), bare otherwise; this
governs header text only. -/
def sigil (expanded : Bool) (seg : String) : String :=
  if expanded then (if seg = "id" then "@id" else if seg = "type" then "@type" else seg)
  else seg

/-- Modelled from the spec (section 4.1, `toTable`): flatten one tree's fields
depth-first, left-to-right, into (segment-path, cell) pairs; a nested resource
recurses with its key prepended; a scalar equal to a `naValues` entry, or the
language-level absence sentinel (null), becomes the NA marker (`none`);
sequences have no tabular form and contribute nothing. -/
def flattenFields (na : List SVal) : Fields → List (List String × Option SVal)
  | [] => []
  | (k, .scalar s) :: fs =>
    ([k], if s ∈ na then none else some s) :: flattenFields na fs
  | (k, .null) :: fs => ([k], none) :: flattenFields na fs
  | (k, .res _ gs) :: fs =>
    (flattenFields na gs).map (fun pc => (k :: pc.1, pc.2)) ++ flattenFields na fs
  | (_, .list _) :: fs => flattenFields na fs
termination_by fs => sizeOf fs
decreasing_by
  all_goals simp only [List.cons.sizeOf_spec, Prod.mk.sizeOf_spec, Val.res.sizeOf_spec]
  all_goals omega

/-- Modelled from the spec (section 4.1): when `includeStoreMetadata` is true,
one extra column per store-metadata field present on the tree. -/
def metaPairs (includeSM : Bool) (r : Resource) : List (List String × Option SVal) :=
  if includeSM then
    match r.meta.storeMetadata with
    | some kvs => kvs.map (fun kv => ([kv.1], some kv.2))
    | none => []
  else []

/-- One tree's row, as (segment-path, cell) pairs with the sigil applied. -/
def rowPairs (na : List SVal) (expanded includeSM : Bool) (r : Resource) :
    List (List String × Option SVal) :=
  (flattenFields na r.fields ++ metaPairs includeSM r).map
    (fun pc => (pc.1.map (sigil expanded), pc.2))

/-- Join path segments with the nesting delimiter into a column name. -/
def joinSegs (delim : String) : List String → String
  | [] => ""
  | [s] => s
  | s :: rest => s ++ delim ++ joinSegs delim rest

/-- Full split of a character list on a nonempty separator `d0 :: drest`,
scanning left to right (Python `str.split(sep)`). -/
def splitChars (d0 : Char) (drest : List Char) : List Char → List (List Char)
  | [] => [[]]
  | c :: cs =>
    if d0 = c ∧ List.isPrefixOf drest cs then
      [] :: splitChars d0 drest (cs.drop drest.length)
    else
      match splitChars d0 drest cs with
      | [] => [[c]]
      | s :: ss => (c :: s) :: ss
termination_by cs => cs.length
decreasing_by
  · have := List.length_drop drest.length cs
    simp only [List.length_cons]
    omega
  · simp only [List.length_cons]
    omega

/-- Split a column name into its path segments on the nesting delimiter. -/
def splitFull (delim : String) (s : String) : List String :=
  match delim.data with
  | [] => [s]
  | d0 :: drest => (splitChars d0 drest s.data).map (fun cs => ⟨cs⟩)

/-- The cell a row holds for a column path: the recorded cell when the path is
present, the NA marker when the row lacks the column (right-padding). -/
def cellAt : List (List String × Option SVal) → List String → Option SVal
  | [], _ => none
  | (q, c) :: rp, p => if q = p then c else cellAt rp p

/-- A table: named columns and rows of NA-capable cells, aligned by index. -/
structure Table where
  cols : List String
  rows : List (List (Option SVal))
deriving DecidableEq, Repr

/-- Modelled from the spec (section 4.1): `toTable` / `as_dataframe`.  One row
per tree; the column set is the union of all rows' flattened paths, ordered by
first encounter scanning rows in input order, depth-first, left-to-right;
rows lacking a column get NA. -/
def as_dataframe (trees : List Resource) (na : List SVal) (nesting : String)
    (expanded includeSM : Bool) : Table :=
  let rows := trees.map (rowPairs na expanded includeSM)
  let colsSeg := dedupFirst (rows.flatMap (fun rp => rp.map (fun pc => pc.1)))
  ⟨colsSeg.map (joinSegs nesting), rows.map (fun rp => colsSeg.map (cellAt rp))⟩

/-- `fromTable`'s failure: the same path used as both a scalar column and a
nested-object column (spec section 4.1 / section 7, `ShapeConflict`). -/
inductive CErr where
  | shapeConflict : CErr
deriving DecidableEq, Repr

/-- Materialize a fresh chain of nested resources for a path's segments ending
in a scalar cell value. -/
def freshPath : List String → SVal → Fields
  | [], _ => []
  | [k], v => [(k, .scalar v)]
  | k :: k2 :: rest, v => [(k, .res defaultMeta (freshPath (k2 :: rest) v))]

/-- Replace the value stored at the first occurrence of a key. -/
def replaceF : Fields → String → Val → Fields
  | [], _, _ => []
  | (k', w) :: fs, k, v => if k' = k then (k, v) :: fs else (k', w) :: replaceF fs k v

/-- Modelled from the spec (section 4.1, `fromTable`): insert one scalar cell
at a segment path, materializing intermediate resources on first reference and
reusing them for later columns sharing the prefix; a path used as both scalar
and nested-object is a `ShapeConflict`. -/
def insertPath : Fields → List String → SVal → Except CErr Fields
  | _, [], _ => .error .shapeConflict
  | fs, [k], v =>
    match lookupF fs k with
    | none => .ok (fs ++ [(k, .scalar v)])
    | some _ => .error .shapeConflict
  | fs, k :: k2 :: rest, v =>
    match lookupF fs k with
    | none => .ok (fs ++ [(k, .res defaultMeta (freshPath (k2 :: rest) v))])
    | some (.res m gs) =>
      (insertPath gs (k2 :: rest) v).map (fun gs2 => replaceF fs k (.res m gs2))
    | some _ => .error .shapeConflict

/-- Process one (column, cell) pair of a row: NA cells and cells holding a
`naValues` entry are omitted entirely, anything else is inserted at the
column's split path. -/
def insertCell (na : List SVal) (delim : String) (fs : Fields)
    (col : String) (cell : Option SVal) : Except CErr Fields :=
  match cell with
  | none => .ok fs
  | some v => if v ∈ na then .ok fs else insertPath fs (splitFull delim col) v

/-- Fold a row's (column, cell) pairs, left to right, into tree fields. -/
def buildRowAux (na : List SVal) (delim : String) :
    Fields → List (String × Option SVal) → Except CErr Fields
  | fs, [] => .ok fs
  | fs, (c, cell) :: rest => do
    let fs2 ← insertCell na delim fs c cell
    buildRowAux na delim fs2 rest

/-- Reconstruct one resource from one table row. -/
def buildRow (na : List SVal) (delim : String) (cols : List String)
    (row : List (Option SVal)) : Except CErr Resource :=
  (buildRowAux na delim [] (cols.zip row)).map (fun fs => ⟨defaultMeta, fs⟩)

/-- Reconstruct every row in order. -/
def buildRows (na : List SVal) (delim : String) (cols : List String) :
    List (List (Option SVal)) → Except CErr (List Resource)
  | [] => .ok []
  | row :: rows => do
    let r ← buildRow na delim cols row
    let rs ← buildRows na delim cols rows
    .ok (r :: rs)

/-- Modelled from the spec (section 4.1): `fromTable` / `from_dataframe`.
Each row becomes one resource; cells equal to the NA marker or listed in
`naValues` are omitted (the field is absent, not null). -/
def from_dataframe (tbl : Table) (na : List SVal) (nesting : String) :
    Except CErr (List Resource) :=
  buildRows na nesting tbl.cols tbl.rows

/-- The field-absence normalization of the round-trip statement: fields whose
cell was written as NA (null values, `naValues` entries) are absent from the
reconstructed tree, and a nested resource all of whose fields end up absent is
itself absent (it contributes no column). -/
def normalizeFields (na : List SVal) : Fields → Fields
  | [] => []
  | (k, .scalar s) :: fs =>
    if s ∈ na then normalizeFields na fs
    else (k, .scalar s) :: normalizeFields na fs
  | (_, .null) :: fs => normalizeFields na fs
  | (k, .res m gs) :: fs =>
    if (normalizeFields na gs).isEmpty then normalizeFields na fs
    else (k, .res m (normalizeFields na gs)) :: normalizeFields na fs
  | (k, .list xs) :: fs => (k, .list xs) :: normalizeFields na fs
termination_by fs => sizeOf fs
decreasing_by
  all_goals simp only [List.cons.sizeOf_spec, Prod.mk.sizeOf_spec, Val.res.sizeOf_spec]
  all_goals omega

/-- Normalization lifted to a resource. -/
def normalizeR (na : List SVal) (r : Resource) : Resource :=
  ⟨r.meta, normalizeFields na r.fields⟩

/-- Two paths neither of which is a prefix of the other: the shape of two
distinct non-nested column paths. -/
def pathDisj (p q : List String) : Prop :=
  ¬ List.IsPrefix p q ∧ ¬ List.IsPrefix q p

/-- The (path, scalar) pairs of a normalized tree: its table content. -/
def flatP : Fields → List (List String × SVal)
  | [] => []
  | (k, .scalar s) :: fs => ([k], s) :: flatP fs
  | (_, .null) :: fs => flatP fs
  | (k, .res _ gs) :: fs => (flatP gs).map (fun pv => (k :: pv.1, pv.2)) ++ flatP fs
  | (_, .list _) :: fs => flatP fs
termination_by fs => sizeOf fs
decreasing_by
  all_goals simp only [List.cons.sizeOf_spec, Prod.mk.sizeOf_spec, Val.res.sizeOf_spec]
  all_goals omega

/-- The (tail-path, value) pairs of the pairs whose path starts with `k`. -/
def subPairs (k : String) (ps : List (List String × SVal)) : List (List String × SVal) :=
  ps.filterMap (fun pv =>
    match pv.1 with
    | k2 :: rest => if k2 = k then some (rest, pv.2) else none
    | [] => none)

/-- The (path, value) pair a row actually inserts for a column path: nothing
when the row holds the NA marker or an `naValues` entry there. -/
def rowStep (na : List SVal) (rp : List (List String × Option SVal))
    (p : List String) : Option (List String × SVal) :=
  match cellAt rp p with
  | none => none
  | some v => if v ∈ na then none else some (p, v)

mutual

/-- Values a reconstruction can contain: scalars, or nonempty subtrees in the
default metadata state — the shape `fromTable` builds and normalization
produces. -/
def goodV : Val → Bool
  | .scalar _ => true
  | .null => false
  | .res m fs => decide (m = defaultMeta) && !fs.isEmpty && goodF fs
  | .list _ => false
termination_by v => sizeOf v
decreasing_by
  simp only [Val.res.sizeOf_spec]
  omega

/-- Field lists with pairwise-distinct keys and good values. -/
def goodF : Fields → Bool
  | [] => true
  | (k, v) :: fs => (lookupF fs k).isNone && goodV v && goodF fs
termination_by fs => sizeOf fs
decreasing_by
  · simp only [List.cons.sizeOf_spec, Prod.mk.sizeOf_spec]
    omega
  · simp only [List.cons.sizeOf_spec]
    omega

end

/-- Insert a sequence of (path, value) pairs left to right. -/
def insertAll (gs : Fields) : List (List String × SVal) → Except CErr Fields
  | [] => .ok gs
  | (p, v) :: ps =>
    match insertPath gs p v with
    | .error e => .error e
    | .ok gs2 => insertAll gs2 ps

mutual

/-- Structural equivalence of values up to field order, mirroring Python
dict equality (`Resource.__eq__` compares `__dict__`s, which ignores key
insertion order): metadata and scalars must match exactly, field lists must
have equal length and cover each other by key lookup. -/
def eqvV : Val → Val → Bool
  | .scalar a, .scalar c => decide (a = c)
  | .null, .null => true
  | .res m fs, .res m2 gs =>
    decide (m = m2) && decide (fs.length = gs.length) && coveredBy fs gs && coveredBy gs fs
  | .list xs, .list ys => eqvL xs ys
  | _, _ => false
termination_by a c => sizeOf a + sizeOf c
decreasing_by
  all_goals simp only [Val.res.sizeOf_spec, Val.list.sizeOf_spec]
  all_goals omega

/-- Each binding of the first field list is matched by a lookup in the second. -/
def coveredBy : Fields → Fields → Bool
  | [], _ => true
  | (k, v) :: fs, gs =>
    (match _h : lookupF gs k with
     | some w => eqvV v w
     | none => false) && coveredBy fs gs
termination_by fs gs => sizeOf fs + sizeOf gs
decreasing_by
  · have key : ∀ (hs : Fields) (k : String) (v : Val),
        lookupF hs k = some v → sizeOf v < sizeOf hs := by
      intro hs
      induction hs with
      | nil => intro k v h; simp [lookupF] at h
      | cons kv hs ih =>
        intro k v h
        obtain ⟨k', w⟩ := kv
        simp only [lookupF] at h
        split at h
        · cases h
          simp only [List.cons.sizeOf_spec, Prod.mk.sizeOf_spec]
          omega
        · have := ih k v h
          simp only [List.cons.sizeOf_spec, Prod.mk.sizeOf_spec]
          omega
    have := key gs k _ _h
    simp only [List.cons.sizeOf_spec, Prod.mk.sizeOf_spec]
    omega
  · simp only [List.cons.sizeOf_spec, Prod.mk.sizeOf_spec]
    omega

/-- Pointwise equivalence of sequences (order matters inside sequences). -/
def eqvL : List Val → List Val → Bool
  | [], [] => true
  | x :: xs, y :: ys => eqvV x y && eqvL xs ys
  | _, _ => false
termination_by xs ys => sizeOf xs + sizeOf ys
decreasing_by
  all_goals simp only [List.cons.sizeOf_spec]
  all_goals omega

end

/-- Equivalence of field lists up to order (Python dict equality). -/
def eqvF (fs gs : Fields) : Bool :=
  decide (fs.length = gs.length) && coveredBy fs gs && coveredBy gs fs

/-- Equivalence of resources up to field order (Python `==` on resources). -/
def resourceEquiv (r1 r2 : Resource) : Bool :=
  decide (r1.meta = r2.meta) && eqvF r1.fields r2.fields

mutual

/-- The domain of the table round-trip (spec sections 3 and 4.1): a value is
table-safe when it is a scalar not declared as an NA sentinel, null, or a
nested resource in default metadata state whose fields are table-safe;
sequences have no tabular form. -/
def tableSafeV (na : List SVal) (dchars : List Char) : Val → Bool
  | .scalar s => decide (s ∉ na)
  | .null => true
  | .res m fs => decide (m = defaultMeta) && tableSafeF na dchars fs
  | .list _ => false
termination_by v => sizeOf v
decreasing_by
  simp only [Val.res.sizeOf_spec]
  omega

/-- Field lists in the round-trip domain: keys are pairwise distinct and
contain no delimiter character, values are table-safe. -/
def tableSafeF (na : List SVal) (dchars : List Char) : Fields → Bool
  | [] => true
  | (k, v) :: fs =>
    k.data.all (fun c => !(dchars.contains c))
      && (lookupF fs k).isNone
      && tableSafeV na dchars v
      && tableSafeF na dchars fs
termination_by fs => sizeOf fs
decreasing_by
  · simp only [List.cons.sizeOf_spec, Prod.mk.sizeOf_spec]
    omega
  · simp only [List.cons.sizeOf_spec]
    omega

end

/-- A resource in the round-trip domain: default metadata, table-safe fields. -/
def tableSafeR (na : List SVal) (dchars : List Char) (r : Resource) : Bool :=
  decide (r.meta = defaultMeta) && tableSafeF na dchars r.fields

/-- The `else` branch discriminator of `_reshape`: a value that is neither a
sequence nor a nested resource (a scalar or null). -/
def scalarLike : Val → Bool
  | .res _ _ => false
  | .list _ => false
  | _ => true

/-- The trees carried by a reshape input or result. -/
def rdataList : RData → List Resource
  | .one r => [r]
  | .many rs => rs

mutual

/-- Recursive presence of every kept root on the relevant subtrees, mirroring
the traversal of `_reshape` exactly: roots must be fields of the trees the
traversal actually visits, and the template's referenced fields must be
present whenever a scalar id is versioned. -/
def keepOkOne (tpl : Template) (x : Val) (keep : List String) (versioned : Bool) : Bool :=
  let levels := keep.map split1
  let roots := dedupFirst (levels.map (fun p => p.1))
  keepOkRoots tpl x levels roots versioned
termination_by (sizeOf x, keep.length + 1)
decreasing_by
  apply Prod.Lex.right
  have h1 : ∀ (ys : List String), (dedupFirst ys).length ≤ ys.length := by
    intro ys
    induction ys using dedupFirst.induct with
    | case1 => simp [dedupFirst]
    | case2 x xs ih =>
      rw [dedupFirst]
      simp only [List.length_cons]
      have := List.length_filter_le (fun y => decide (y ≠ x)) xs
      omega
  have h2 := h1 ((keep.map split1).map (fun p => p.1))
  simp only [List.length_map] at h2
  omega

/-- Presence check for a list of roots. -/
def keepOkRoots (tpl : Template) (x : Val) (levels : List (String × Option String))
    (roots : List String) (versioned : Bool) : Bool :=
  match roots with
  | [] => true
  | root :: rest =>
    keepOkRoot tpl x levels root versioned && keepOkRoots tpl x levels rest versioned
termination_by (sizeOf x, roots.length)
decreasing_by
  · apply Prod.Lex.right
    simp
  · apply Prod.Lex.right
    simp

/-- Presence check for one root, mirroring `rootResult`'s branches. -/
def keepOkRoot (tpl : Template) (x : Val) (levels : List (String × Option String))
    (root : String) (versioned : Bool) : Bool :=
  match _h : getattr x root with
  | none => false
  | some (.list es) => keepOkMany tpl es (leafsFor levels root) versioned
  | some (.res m gs) =>
    if (leafsFor levels root).isEmpty then true
    else keepOkOne tpl (.res m gs) (leafsFor levels root) versioned
  | some _ =>
    if root = "id" ∧ versioned then (formatT tpl x).isOk else true
termination_by (sizeOf x, 0)
decreasing_by
  · apply Prod.Lex.left
    have key : ∀ (fs : Fields) (k : String) (v : Val),
        lookupF fs k = some v → sizeOf v < sizeOf fs := by
      intro fs
      induction fs with
      | nil => intro k v h; simp [lookupF] at h
      | cons kv fs ih =>
        intro k v h
        obtain ⟨k', w⟩ := kv
        simp only [lookupF] at h
        split at h
        · cases h
          simp only [List.cons.sizeOf_spec, Prod.mk.sizeOf_spec]
          omega
        · have := ih k v h
          simp only [List.cons.sizeOf_spec, Prod.mk.sizeOf_spec]
          omega
    have key2 : sizeOf (Val.list es) < sizeOf x := by
      cases x with
      | res m fs =>
        simp only [getattr] at _h
        have := key fs root _ _h
        simp only [Val.res.sizeOf_spec]
        omega
      | scalar s => simp [getattr] at _h
      | null => simp [getattr] at _h
      | list xs => simp [getattr] at _h
    simp only [Val.list.sizeOf_spec] at key2
    omega
  · apply Prod.Lex.left
    have key : ∀ (fs : Fields) (k : String) (v : Val),
        lookupF fs k = some v → sizeOf v < sizeOf fs := by
      intro fs
      induction fs with
      | nil => intro k v h; simp [lookupF] at h
      | cons kv fs ih =>
        intro k v h
        obtain ⟨k', w⟩ := kv
        simp only [lookupF] at h
        split at h
        · cases h
          simp only [List.cons.sizeOf_spec, Prod.mk.sizeOf_spec]
          omega
        · have := ih k v h
          simp only [List.cons.sizeOf_spec, Prod.mk.sizeOf_spec]
          omega
    cases x with
    | res m2 fs =>
      simp only [getattr] at _h
      have := key fs root _ _h
      have h3 : sizeOf fs ≤ sizeOf (Val.res m2 fs) := by
        simp only [Val.res.sizeOf_spec]
        omega
      omega
    | scalar s => simp [getattr] at _h
    | null => simp [getattr] at _h
    | list xs => simp [getattr] at _h

/-- Presence check for each element of a sequence. -/
def keepOkMany (tpl : Template) (xs : List Val) (keep : List String) (versioned : Bool) : Bool :=
  match xs with
  | [] => true
  | e :: es => keepOkOne tpl e keep versioned && keepOkMany tpl es keep versioned
termination_by (sizeOf xs, keep.length + 2)
decreasing_by
  · apply Prod.Lex.left
    simp only [List.cons.sizeOf_spec]
    omega
  · apply Prod.Lex.left
    simp only [List.cons.sizeOf_spec]
    omega

end

/-- The version template of the spec's versioned-id example: the id field of
the substitution subject followed by the literal suffix "-v1". -/
def tplIdV1 : Template := [.field "id", .lit "-v1"]

/-- First tree of the spec's table example. -/
def rEx1 : Resource :=
  ⟨defaultMeta, [("id", .scalar (.s "123")), ("type", .scalar (.s "Type")),
    ("p1", .scalar (.s "v1a")), ("p2", .scalar (.s "v2a"))]⟩

/-- Second tree of the spec's table example. -/
def rEx2 : Resource :=
  ⟨defaultMeta, [("id", .scalar (.s "345")), ("type", .scalar (.s "Type")),
    ("p1", .scalar (.s "v1b")), ("p2", .scalar (.s "v2b"))]⟩

/-- The spec's example table: columns id, type, p1, p2 and two rows. -/
def tblEx : Table :=
  ⟨["id", "type", "p1", "p2"],
   [[some (.s "123"), some (.s "Type"), some (.s "v1a"), some (.s "v2a")],
    [some (.s "345"), some (.s "Type"), some (.s "v1b"), some (.s "v2b")]]⟩

/-- Input of the versioned-id example: a tree whose id is "123". -/
def rId123 : Resource := ⟨defaultMeta, [("id", .scalar (.s "123"))]⟩

/-- Counterexample input for the leaf-value walk: the kept sub-object holds an
array of scalars, which the source's walk skips. -/
def rArr : Resource :=
  ⟨defaultMeta, [("p", .res defaultMeta [("a", .list [.scalar (.i 1), .scalar (.i 2)])])]⟩

/-- Counterexample input for the path-syntax claim: a scalar-valued field p. -/
def rP1 : Resource := ⟨defaultMeta, [("p", .scalar (.i 1))]⟩

/-- Witness input for the shallow-copy claim: the kept sub-object and its
grandchild both carry non-default metadata and nested grandchildren. -/
def rSh : Resource :=
  ⟨defaultMeta,
   [("p", .res ⟨true, true, some "updated", some [("version", .i 1)]⟩
      [("a", .res ⟨true, false, none, none⟩ [("b", .scalar (.i 7))]),
       ("c", .scalar (.s "x"))])]⟩

mutual

/-- No array of the plain form directly holds a non-dict element (inside a
value position). -/
def arrObjs : JVal → Bool
  | .obj fs => arrObjsF fs
  | .arr xs => arrObjsTop xs
  | _ => true
termination_by v => sizeOf v
decreasing_by
  · simp only [JVal.obj.sizeOf_spec]
    omega
  · simp only [JVal.arr.sizeOf_spec]
    omega

/-- Every element of the list is a dict, recursively well-shaped. -/
def arrObjsTop : List JVal → Bool
  | [] => true
  | .obj fs :: xs => arrObjsF fs && arrObjsTop xs
  | _ :: _ => false
termination_by xs => sizeOf xs
decreasing_by
  · simp only [List.cons.sizeOf_spec, JVal.obj.sizeOf_spec]
    omega
  · simp only [List.cons.sizeOf_spec]
    omega

/-- Field part of `arrObjs`. -/
def arrObjsF : List (String × JVal) → Bool
  | [] => true
  | (_, v) :: fs => arrObjs v && arrObjsF fs
termination_by fs => sizeOf fs
decreasing_by
  · simp only [List.cons.sizeOf_spec, Prod.mk.sizeOf_spec]
    omega
  · simp only [List.cons.sizeOf_spec]
    omega

end

/-- The distinct roots referenced by a kept-path list, in the deterministic
first-encounter order fixed by this embedding. -/
def rootsOf (keep : List String) : List String :=
  dedupFirst ((keep.map split1).map (fun p => p.1))

/-- Expected reshape output for the shallow-copy witness: the kept sub-object's
fields verbatim (grandchild metadata untouched), its own metadata reset. -/
def ySh : Resource :=
  ⟨defaultMeta,
   [("p", .res defaultMeta
      [("a", .res ⟨true, false, none, none⟩ [("b", .scalar (.i 7))]),
       ("c", .scalar (.s "x"))])]⟩

theorem lookupF_mem_keys {fs : Fields} {k : String} {v : Val}
    (h : lookupF fs k = some v) : k ∈ keysF fs := by
  induction fs with
  | nil => simp [lookupF] at h
  | cons kv fs ih =>
    obtain ⟨k', w⟩ := kv
    simp only [lookupF] at h
    simp only [keysF, List.map_cons, List.mem_cons]
    split at h
    · left
      exact (by assumption : k' = k).symm
    · right
      simpa [keysF] using ih h

theorem lookupF_eq_none_iff {fs : Fields} {k : String} :
    lookupF fs k = none ↔ k ∉ keysF fs := by
  induction fs with
  | nil => simp [lookupF, keysF]
  | cons kv fs ih =>
    obtain ⟨k', w⟩ := kv
    simp only [lookupF, keysF, List.map_cons, List.mem_cons]
    split
    · simp_all
    · simp only [ih, keysF]
      constructor
      · intro hn hc
        rcases hc with hc | hc
        · exact (by assumption : ¬ k' = k) hc.symm
        · exact hn hc
      · intro hn
        intro hc
        exact hn (Or.inr hc)

theorem lookupF_isSome_iff {fs : Fields} {k : String} :
    (lookupF fs k).isSome ↔ k ∈ keysF fs := by
  rcases h : lookupF fs k with _ | v
  · simp [lookupF_eq_none_iff.mp h]
  · simp [lookupF_mem_keys h]

theorem dedupFirst_mem {α : Type} [DecidableEq α] {a : α} {l : List α} :
    a ∈ dedupFirst l ↔ a ∈ l := by
  induction l using dedupFirst.induct with
  | case1 => simp [dedupFirst]
  | case2 x xs ih =>
    rw [dedupFirst]
    simp only [List.mem_cons, ih, List.mem_filter]
    by_cases hax : a = x
    · simp [hax]
    · simp [hax]

theorem dedupFirst_nodup {α : Type} [DecidableEq α] (l : List α) :
    (dedupFirst l).Nodup := by
  induction l using dedupFirst.induct with
  | case1 => simp [dedupFirst]
  | case2 x xs ih =>
    rw [dedupFirst]
    refine List.Nodup.cons ?_ ih
    intro hx
    have := dedupFirst_mem.mp hx
    simp only [List.mem_filter] at this
    simp at this

theorem exceptMap_ok {ε α β : Type} {e : Except ε α} {f : α → β} {b : β} :
    e.map f = .ok b ↔ ∃ a, e = .ok a ∧ f a = b := by
  cases e <;> simp [Except.map]

theorem exceptMap_error {ε α β : Type} {e : Except ε α} {f : α → β} {err : ε} :
    e.map f = .error err ↔ e = .error err := by
  cases e <;> simp [Except.map]

theorem reshapeOne_eq (tpl : Template) (x : Val) (keep : List String) (v : Bool) :
    reshapeOne tpl x keep v =
      (reshapeRoots tpl x (keep.map split1)
        (dedupFirst ((keep.map split1).map (fun p => p.1))) v).map
        (fun fs => ⟨defaultMeta, fs⟩) := by
  rw [reshapeOne.eq_def]

theorem reshapeRoots_nil (tpl : Template) (x : Val) (levels : List (String × Option String))
    (v : Bool) : reshapeRoots tpl x levels [] v = .ok [] := by
  rw [reshapeRoots.eq_def]

theorem reshapeRoots_cons (tpl : Template) (x : Val) (levels : List (String × Option String))
    (root : String) (rest : List String) (v : Bool) :
    reshapeRoots tpl x levels (root :: rest) v =
      (rootResult tpl x levels root v).bind (fun nv =>
        (reshapeRoots tpl x levels rest v).bind (fun restF =>
          .ok ((root, nv) :: restF))) := by
  rw [reshapeRoots.eq_def]
  rfl

theorem exceptBind_ok {ε α β : Type} {e : Except ε α} {f : α → Except ε β} {b : β} :
    e.bind f = .ok b ↔ ∃ a, e = .ok a ∧ f a = .ok b := by
  cases e <;> simp [Except.bind]

theorem reshapeOne_meta {tpl : Template} {x : Val} {keep : List String} {v : Bool}
    {y : Resource} (h : reshapeOne tpl x keep v = .ok y) : y.meta = defaultMeta := by
  rw [reshapeOne_eq] at h
  rw [exceptMap_ok] at h
  obtain ⟨fs, _, hy⟩ := h
  rw [← hy]

theorem reshapeRoots_keys {tpl : Template} {x : Val} {levels : List (String × Option String)}
    {roots : List String} {v : Bool} {fs : Fields}
    (h : reshapeRoots tpl x levels roots v = .ok fs) : keysF fs = roots := by
  induction roots generalizing fs with
  | nil =>
    rw [reshapeRoots_nil] at h
    cases h
    rfl
  | cons root rest ih =>
    rw [reshapeRoots_cons, exceptBind_ok] at h
    obtain ⟨nv, _, h2⟩ := h
    rw [exceptBind_ok] at h2
    obtain ⟨restF, hrest, h3⟩ := h2
    cases h3
    simp only [keysF, List.map_cons, List.cons.injEq]
    exact ⟨trivial, ih hrest⟩

theorem reshapeRoots_lookup {tpl : Template} {x : Val} {levels : List (String × Option String)}
    {roots : List String} {v : Bool} {fs : Fields} {root : String}
    (h : reshapeRoots tpl x levels roots v = .ok fs) (hr : root ∈ roots) :
    ∃ nv, rootResult tpl x levels root v = .ok nv ∧ lookupF fs root = some nv := by
  induction roots generalizing fs with
  | nil => simp at hr
  | cons root' rest ih =>
    rw [reshapeRoots_cons, exceptBind_ok] at h
    obtain ⟨nv, hnv, h2⟩ := h
    rw [exceptBind_ok] at h2
    obtain ⟨restF, hrest, h3⟩ := h2
    cases h3
    rcases List.mem_cons.mp hr with heq | hmem
    · subst heq
      exact ⟨nv, hnv, by simp [lookupF]⟩
    · by_cases hro : root' = root
      · subst hro
        exact ⟨nv, hnv, by simp [lookupF]⟩
      · obtain ⟨nv2, hnv2, hl⟩ := ih hrest hmem
        exact ⟨nv2, hnv2, by simp [lookupF, hro, hl]⟩

theorem rootResult_none {x : Val} {root : String} (tpl : Template)
    (levels : List (String × Option String)) (v : Bool)
    (h : getattr x root = none) :
    rootResult tpl x levels root v = .error (.unknownField root) := by
  rw [rootResult.eq_def]
  split <;> simp_all

theorem rootResult_list {x : Val} {root : String} {es : List Val} (tpl : Template)
    (levels : List (String × Option String)) (v : Bool)
    (h : getattr x root = some (.list es)) :
    rootResult tpl x levels root v =
      (reshapeMany tpl es (leafsFor levels root) v).map
        (fun rs => .list (rs.map Resource.toVal)) := by
  rw [rootResult.eq_def]
  split <;> simp_all

theorem rootResult_res {x : Val} {root : String} {m : RMeta} {gs : Fields} (tpl : Template)
    (levels : List (String × Option String)) (v : Bool)
    (h : getattr x root = some (.res m gs)) :
    rootResult tpl x levels root v =
      if (leafsFor levels root).isEmpty then .ok (.res defaultMeta gs)
      else (reshapeOne tpl (.res m gs) (leafsFor levels root) v).map Resource.toVal := by
  rw [rootResult.eq_def]
  split <;> simp_all

theorem rootResult_scalar {x : Val} {root : String} {w : Val} (tpl : Template)
    (levels : List (String × Option String)) (v : Bool)
    (h : getattr x root = some w) (hw : scalarLike w = true) :
    rootResult tpl x levels root v =
      if root = "id" ∧ v then (formatT tpl x).map (fun s => .scalar (.s s))
      else .ok w := by
  cases w with
  | scalar s =>
    rw [rootResult.eq_def]
    split <;> simp_all
  | null =>
    rw [rootResult.eq_def]
    split <;> simp_all
  | res m gs => simp [scalarLike] at hw
  | list xs => simp [scalarLike] at hw

theorem reshapeMany_nil (tpl : Template) (keep : List String) (v : Bool) :
    reshapeMany tpl [] keep v = .ok [] := by
  rw [reshapeMany.eq_def]

theorem reshapeMany_cons (tpl : Template) (e : Val) (es : List Val) (keep : List String)
    (v : Bool) :
    reshapeMany tpl (e :: es) keep v =
      (reshapeOne tpl e keep v).bind (fun r =>
        (reshapeMany tpl es keep v).bind (fun rs => .ok (r :: rs))) := by
  rw [reshapeMany.eq_def]
  rfl

theorem reshapeMany_forall2 {tpl : Template} {es : List Val} {keep : List String} {v : Bool}
    {rs : List Resource} (h : reshapeMany tpl es keep v = .ok rs) :
    List.Forall₂ (fun e r => reshapeOne tpl e keep v = .ok r) es rs := by
  induction es generalizing rs with
  | nil =>
    rw [reshapeMany_nil] at h
    cases h
    exact List.Forall₂.nil
  | cons e es ih =>
    rw [reshapeMany_cons, exceptBind_ok] at h
    obtain ⟨r, hr, h2⟩ := h
    rw [exceptBind_ok] at h2
    obtain ⟨rs2, hrs, h3⟩ := h2
    cases h3
    exact List.Forall₂.cons hr (ih hrs)

theorem reshapeOne_keepNil (tpl : Template) (x : Val) (v : Bool) :
    reshapeOne tpl x [] v = .ok ⟨defaultMeta, []⟩ := by
  rw [reshapeOne_eq]
  simp [dedupFirst, reshapeRoots_nil, Except.map]

theorem reshapeMany_keepNil (tpl : Template) (es : List Val) (v : Bool) :
    reshapeMany tpl es [] v = .ok (es.map (fun _ => ⟨defaultMeta, []⟩)) := by
  induction es with
  | nil => rw [reshapeMany_nil]; rfl
  | cons e es ih =>
    rw [reshapeMany_cons, reshapeOne_keepNil, ih]
    rfl

/-- C2: for a kept root whose value is a scalar, if the root is `id` and
`versioned` is true the output value is the version template formatted with
the original, unreshaped source tree as the sole substitution subject;
otherwise the scalar is copied unchanged.  In particular, reshaping along
`id` with template (the id field followed by the literal suffix -v1) on a tree
whose id is "123" yields a tree whose id is "123-v1". -/
theorem claim2_versioned_scalar :
    (∀ (tpl : Template) (x : Val) (keep : List String) (versioned : Bool) (root : String)
       (w : Val) (y : Resource),
       reshapeOne tpl x keep versioned = .ok y →
       root ∈ rootsOf keep →
       getattr x root = some w →
       scalarLike w = true →
       ((root = "id" ∧ versioned = true →
          ∃ s, formatT tpl x = .ok s ∧ lookupF y.fields root = some (.scalar (.s s))) ∧
        (¬(root = "id" ∧ versioned = true) → lookupF y.fields root = some w))) ∧
    reshapeOne tplIdV1 rId123.toVal ["id"] true =
      .ok ⟨defaultMeta, [("id", .scalar (.s "123-v1"))]⟩ := by
  constructor
  · intro tpl x keep versioned root w y hok hr hget hw
    rw [reshapeOne_eq, exceptMap_ok] at hok
    obtain ⟨fs, hroots, hy⟩ := hok
    obtain ⟨nv, hnv, hlook⟩ := reshapeRoots_lookup hroots hr
    rw [rootResult_scalar tpl (keep.map split1) versioned hget hw] at hnv
    constructor
    · intro hcond
      rw [if_pos hcond, exceptMap_ok] at hnv
      obtain ⟨s, hs, hnv2⟩ := hnv
      refine ⟨s, hs, ?_⟩
      rw [← hy]
      rw [← hnv2] at hlook
      exact hlook
    · intro hcond
      rw [if_neg hcond] at hnv
      cases hnv
      rw [← hy]
      exact hlook
  · simp +decide [reshapeOne, reshapeRoots, rootResult, reshapeMany, formatT, getattr,
      lookupF, split1, split1Chars, dedupFirst, leafsFor, renderScalar, Resource.toVal,
      rId123, tplIdV1, Except.map, Except.bind, bind]

/-- C2 witness: the general statement applied to the concrete versioned-id
example. -/
theorem claim2_witness :
    ∃ s, formatT tplIdV1 rId123.toVal = .ok s ∧
      lookupF [("id", Val.scalar (.s "123-v1"))] "id" = some (.scalar (.s s)) := by
  have h := claim2_versioned_scalar.1 tplIdV1 rId123.toVal ["id"] true "id"
    (.scalar (.s "123")) ⟨defaultMeta, [("id", .scalar (.s "123-v1"))]⟩
    claim2_versioned_scalar.2
    (by simp [rootsOf, split1, split1Chars, dedupFirst, rId123])
    (by simp [getattr, lookupF, rId123, Resource.toVal])
    (by simp [scalarLike])
  exact h.1 ⟨rfl, rfl⟩

theorem reshapeMany_meta {tpl : Template} {es : List Val} {keep : List String} {v : Bool}
    {rs : List Resource} (h : reshapeMany tpl es keep v = .ok rs) :
    ∀ y ∈ rs, y.meta = defaultMeta := by
  induction es generalizing rs with
  | nil =>
    rw [reshapeMany_nil] at h
    cases h
    simp
  | cons e es ih =>
    rw [reshapeMany_cons, exceptBind_ok] at h
    obtain ⟨r, hr, h2⟩ := h
    rw [exceptBind_ok] at h2
    obtain ⟨rs2, hrs, h3⟩ := h2
    cases h3
    intro y hy
    rcases List.mem_cons.mp hy with hy | hy
    · rw [hy]
      exact reshapeOne_meta hr
    · exact ih hrs y hy

/-- C4: every tree returned by reshape is in the default provenance state:
unsynchronized, unvalidated, no store metadata, no pending last action,
regardless of the source's state. -/
theorem claim4_metadata_reset :
    ∀ (tpl : Template) (data : RData) (keep : List String) (versioned : Bool) (out : RData),
      reshape tpl data keep versioned = .ok out →
      ∀ y ∈ rdataList out,
        y.meta.synchronized = false ∧ y.meta.validated = false ∧
        y.meta.lastAction = none ∧ y.meta.storeMetadata = none := by
  intro tpl data keep versioned out hok y hy
  have hmeta : y.meta = defaultMeta := by
    cases data with
    | one r =>
      simp only [reshape] at hok
      rw [exceptMap_ok] at hok
      obtain ⟨r2, hr2, hout⟩ := hok
      rw [← hout] at hy
      simp only [rdataList, List.mem_singleton] at hy
      rw [hy]
      exact reshapeOne_meta hr2
    | many rs =>
      simp only [reshape] at hok
      rw [exceptMap_ok] at hok
      obtain ⟨rs2, hrs2, hout⟩ := hok
      rw [← hout] at hy
      simp only [rdataList] at hy
      exact reshapeMany_meta hrs2 y hy
  rw [hmeta]
  exact ⟨rfl, rfl, rfl, rfl⟩

/-- C4 witness: the general statement applied to a source tree whose kept
sub-object carries non-default metadata. -/
theorem claim4_witness :
    ySh.meta.synchronized = false ∧ ySh.meta.validated = false ∧
    ySh.meta.lastAction = none ∧ ySh.meta.storeMetadata = none := by
  refine claim4_metadata_reset [] (.one rSh) ["p"] false (.one ySh) ?_ ySh ?_
  · simp +decide [reshape, reshapeOne, reshapeRoots, rootResult, reshapeMany, formatT,
      getattr, lookupF, split1, split1Chars, dedupFirst, leafsFor, renderScalar,
      Resource.toVal, rSh, ySh, Except.map, Except.bind, bind]
  · simp [rdataList]

/-- C5: a kept root whose value is a single nested tree with no leaf paths is
copied shallowly: the sub-object's own top-level fields are kept verbatim
(grandchildren as-is, not recursively pruned), and exactly the reserved
metadata fields (synchronized, validated, last action, store metadata) are
excluded, the copy being in the default metadata state.  The concrete instance
shows a grandchild's non-default metadata surviving verbatim while the copied
sub-object's own metadata is reset. -/
theorem claim5_shallow_copy :
    (∀ (tpl : Template) (x : Val) (keep : List String) (versioned : Bool) (root : String)
       (m : RMeta) (gs : Fields) (y : Resource),
       reshapeOne tpl x keep versioned = .ok y →
       root ∈ rootsOf keep →
       getattr x root = some (.res m gs) →
       leafsFor (keep.map split1) root = [] →
       lookupF y.fields root = some (.res defaultMeta gs)) ∧
    reshapeOne [] rSh.toVal ["p"] false = .ok ySh := by
  constructor
  · intro tpl x keep versioned root m gs y hok hr hget hleafs
    rw [reshapeOne_eq, exceptMap_ok] at hok
    obtain ⟨fs, hroots, hy⟩ := hok
    obtain ⟨nv, hnv, hlook⟩ := reshapeRoots_lookup hroots hr
    rw [rootResult_res tpl (keep.map split1) versioned hget] at hnv
    rw [hleafs] at hnv
    simp only [List.isEmpty_nil, if_true] at hnv
    cases hnv
    rw [← hy]
    exact hlook
  · simp +decide [reshapeOne, reshapeRoots, rootResult, reshapeMany, formatT,
      getattr, lookupF, split1, split1Chars, dedupFirst, leafsFor, renderScalar,
      Resource.toVal, rSh, ySh, Except.map, Except.bind, bind]

/-- C5 witness: the general statement applied to the concrete tree. -/
theorem claim5_witness :
    lookupF ySh.fields "p" =
      some (.res defaultMeta
        [("a", .res ⟨true, false, none, none⟩ [("b", .scalar (.i 7))]),
         ("c", .scalar (.s "x"))]) := by
  refine claim5_shallow_copy.1 [] rSh.toVal ["p"] false "p"
    ⟨true, true, some "updated", some [("version", .i 1)]⟩
    [("a", .res ⟨true, false, none, none⟩ [("b", .scalar (.i 7))]),
     ("c", .scalar (.s "x"))] ySh claim5_shallow_copy.2 ?_ ?_ ?_
  · simp [rootsOf, split1, split1Chars, dedupFirst]
  · simp [getattr, lookupF, rSh, Resource.toVal]
  · simp [leafsFor, split1, split1Chars]

/-- C10: a kept root holding a sequence is reshaped elementwise with the
root's remaining leaf segments, yielding a list of the same length in the same
order; with no leaf segments every element, scalar elements included, becomes
an empty resource tree rather than a copy of the scalar. -/
theorem claim10_list_elements :
    (∀ (tpl : Template) (x : Val) (keep : List String) (versioned : Bool) (root : String)
       (es : List Val) (y : Resource),
       reshapeOne tpl x keep versioned = .ok y →
       root ∈ rootsOf keep →
       getattr x root = some (.list es) →
       ∃ rs, reshapeMany tpl es (leafsFor (keep.map split1) root) versioned = .ok rs ∧
         List.Forall₂
           (fun e r => reshapeOne tpl e (leafsFor (keep.map split1) root) versioned = .ok r)
           es rs ∧
         rs.length = es.length ∧
         lookupF y.fields root = some (.list (rs.map Resource.toVal))) ∧
    (∀ (tpl : Template) (es : List Val) (versioned : Bool),
       reshapeMany tpl es [] versioned = .ok (es.map (fun _ => ⟨defaultMeta, []⟩))) := by
  constructor
  · intro tpl x keep versioned root es y hok hr hget
    rw [reshapeOne_eq, exceptMap_ok] at hok
    obtain ⟨fs, hroots, hy⟩ := hok
    obtain ⟨nv, hnv, hlook⟩ := reshapeRoots_lookup hroots hr
    rw [rootResult_list tpl (keep.map split1) versioned hget, exceptMap_ok] at hnv
    obtain ⟨rs, hrs, hnv2⟩ := hnv
    refine ⟨rs, hrs, reshapeMany_forall2 hrs, (reshapeMany_forall2 hrs).length_eq.symm, ?_⟩
    rw [← hy]
    rw [← hnv2] at hlook
    exact hlook
  · intro tpl es versioned
    exact reshapeMany_keepNil tpl es versioned

/-- C10 witness: a kept root holding a list of two scalars, with no leaf
segments, becomes a list of two empty resources. -/
theorem claim10_witness :
    ∃ rs, reshapeMany [] [Val.scalar (.i 1), Val.scalar (.i 2)]
        (leafsFor (["q"].map split1) "q") false = .ok rs ∧
      List.Forall₂
        (fun e r => reshapeOne [] e (leafsFor (["q"].map split1) "q") false = .ok r)
        [Val.scalar (.i 1), Val.scalar (.i 2)] rs ∧
      rs.length = ([Val.scalar (.i 1), Val.scalar (.i 2)] : List Val).length ∧
      lookupF [("q", Val.list [Resource.toVal ⟨defaultMeta, []⟩,
        Resource.toVal ⟨defaultMeta, []⟩])] "q" =
        some (.list (rs.map Resource.toVal)) := by
  refine claim10_list_elements.1 [] (.res defaultMeta
      [("q", .list [Val.scalar (.i 1), Val.scalar (.i 2)])]) ["q"] false "q"
      [Val.scalar (.i 1), Val.scalar (.i 2)]
      ⟨defaultMeta, [("q", Val.list [Resource.toVal ⟨defaultMeta, []⟩,
        Resource.toVal ⟨defaultMeta, []⟩])]⟩ ?_ ?_ ?_
  · simp +decide [reshapeOne, reshapeRoots, rootResult, reshapeMany, formatT,
      getattr, lookupF, split1, split1Chars, dedupFirst, leafsFor, renderScalar,
      Resource.toVal, Except.map, Except.bind, bind]
  · simp [rootsOf, split1, split1Chars, dedupFirst]
  · simp [getattr, lookupF]

theorem exceptIsOk_iff {ε α : Type} {e : Except ε α} :
    e.isOk = true ↔ ∃ a, e = .ok a := by
  cases e <;> simp [Except.isOk, Except.toBool]

theorem keepOkOne_eq (tpl : Template) (x : Val) (keep : List String) (v : Bool) :
    keepOkOne tpl x keep v =
      keepOkRoots tpl x (keep.map split1)
        (dedupFirst ((keep.map split1).map (fun p => p.1))) v := by
  rw [keepOkOne.eq_def]

theorem keepOkRoots_nil (tpl : Template) (x : Val) (levels : List (String × Option String))
    (v : Bool) : keepOkRoots tpl x levels [] v = true := by
  rw [keepOkRoots.eq_def]

theorem keepOkRoots_cons (tpl : Template) (x : Val) (levels : List (String × Option String))
    (root : String) (rest : List String) (v : Bool) :
    keepOkRoots tpl x levels (root :: rest) v =
      (keepOkRoot tpl x levels root v && keepOkRoots tpl x levels rest v) := by
  rw [keepOkRoots.eq_def]

theorem keepOkRoot_none {x : Val} {root : String} (tpl : Template)
    (levels : List (String × Option String)) (v : Bool)
    (h : getattr x root = none) : keepOkRoot tpl x levels root v = false := by
  rw [keepOkRoot.eq_def]
  split <;> simp_all

theorem keepOkRoot_list {x : Val} {root : String} {es : List Val} (tpl : Template)
    (levels : List (String × Option String)) (v : Bool)
    (h : getattr x root = some (.list es)) :
    keepOkRoot tpl x levels root v = keepOkMany tpl es (leafsFor levels root) v := by
  rw [keepOkRoot.eq_def]
  split <;> simp_all

theorem keepOkRoot_res {x : Val} {root : String} {m : RMeta} {gs : Fields} (tpl : Template)
    (levels : List (String × Option String)) (v : Bool)
    (h : getattr x root = some (.res m gs)) :
    keepOkRoot tpl x levels root v =
      if (leafsFor levels root).isEmpty then true
      else keepOkOne tpl (.res m gs) (leafsFor levels root) v := by
  rw [keepOkRoot.eq_def]
  split <;> simp_all

theorem keepOkRoot_scalar {x : Val} {root : String} {w : Val} (tpl : Template)
    (levels : List (String × Option String)) (v : Bool)
    (h : getattr x root = some w) (hw : scalarLike w = true) :
    keepOkRoot tpl x levels root v =
      if root = "id" ∧ v then (formatT tpl x).isOk else true := by
  cases w with
  | scalar s =>
    rw [keepOkRoot.eq_def]
    split <;> simp_all
  | null =>
    rw [keepOkRoot.eq_def]
    split <;> simp_all
  | res m gs => simp [scalarLike] at hw
  | list xs => simp [scalarLike] at hw

theorem keepOkMany_nil (tpl : Template) (keep : List String) (v : Bool) :
    keepOkMany tpl [] keep v = true := by
  rw [keepOkMany.eq_def]

theorem keepOkMany_cons (tpl : Template) (e : Val) (es : List Val) (keep : List String)
    (v : Bool) :
    keepOkMany tpl (e :: es) keep v =
      (keepOkOne tpl e keep v && keepOkMany tpl es keep v) := by
  rw [keepOkMany.eq_def]

theorem reshapeRoots_ok_getattr {tpl : Template} {x : Val}
    {levels : List (String × Option String)} {roots : List String} {v : Bool} {fs : Fields}
    (h : reshapeRoots tpl x levels roots v = .ok fs) :
    ∀ root ∈ roots, ∃ w, getattr x root = some w := by
  induction roots generalizing fs with
  | nil => simp
  | cons root' rest ih =>
    rw [reshapeRoots_cons, exceptBind_ok] at h
    obtain ⟨nv, hnv, h2⟩ := h
    rw [exceptBind_ok] at h2
    obtain ⟨restF, hrest, _⟩ := h2
    intro root hr
    rcases List.mem_cons.mp hr with heq | hmem
    · subst heq
      rcases hg : getattr x root with _ | w
      · rw [rootResult_none tpl levels v hg] at hnv
        cases hnv
      · exact ⟨w, rfl⟩
    · exact ih hrest root hmem

theorem keepOk_sound (tpl : Template) :
    ∀ (x : Val) (keep : List String) (v : Bool),
      keepOkOne tpl x keep v = true → ∃ y, reshapeOne tpl x keep v = .ok y := by
  apply keepOkOne.induct tpl
    (fun x keep v =>
      keepOkOne tpl x keep v = true → ∃ y, reshapeOne tpl x keep v = .ok y)
    (fun x levels roots v =>
      keepOkRoots tpl x levels roots v = true → ∃ fs, reshapeRoots tpl x levels roots v = .ok fs)
    (fun x levels root v =>
      keepOkRoot tpl x levels root v = true → ∃ nv, rootResult tpl x levels root v = .ok nv)
    (fun xs keep v =>
      keepOkMany tpl xs keep v = true → ∃ rs, reshapeMany tpl xs keep v = .ok rs)
  · intro x keep versioned levels roots ih hok
    rw [keepOkOne_eq] at hok
    obtain ⟨fs, hfs⟩ := ih hok
    exact ⟨⟨defaultMeta, fs⟩, by rw [reshapeOne_eq, hfs]; rfl⟩
  · intro x levels versioned _
    exact ⟨[], reshapeRoots_nil tpl x levels versioned⟩
  · intro x levels versioned root rest ih1 ih2 hok
    rw [keepOkRoots_cons, Bool.and_eq_true] at hok
    obtain ⟨nv, hnv⟩ := ih1 hok.1
    obtain ⟨restF, hrest⟩ := ih2 hok.2
    refine ⟨(root, nv) :: restF, ?_⟩
    rw [reshapeRoots_cons, hnv, hrest]
    rfl
  · intro x levels root versioned hg hok
    rw [keepOkRoot_none tpl levels versioned hg] at hok
    cases hok
  · intro x levels root versioned es hg ih hok
    rw [keepOkRoot_list tpl levels versioned hg] at hok
    obtain ⟨rs, hrs⟩ := ih hok
    refine ⟨.list (rs.map Resource.toVal), ?_⟩
    rw [rootResult_list tpl levels versioned hg, hrs]
    rfl
  · intro x levels root versioned m gs hg hleafs _
    refine ⟨.res defaultMeta gs, ?_⟩
    rw [rootResult_res tpl levels versioned hg, if_pos hleafs]
  · intro x levels root versioned m gs hg hleafs ih hok
    rw [keepOkRoot_res tpl levels versioned hg, if_neg hleafs] at hok
    obtain ⟨y, hy⟩ := ih hok
    refine ⟨y.toVal, ?_⟩
    rw [rootResult_res tpl levels versioned hg, if_neg hleafs, hy]
    rfl
  · intro x levels root versioned w hwl hwr hg hcond hok
    have hw : scalarLike w = true := by
      cases w with
      | scalar s => rfl
      | null => rfl
      | res m gs => exact absurd rfl (fun h => hwr m gs h)
      | list es => exact absurd rfl (fun h => hwl es h)
    rw [keepOkRoot_scalar tpl levels versioned hg hw, if_pos hcond] at hok
    rw [exceptIsOk_iff] at hok
    obtain ⟨str, hstr⟩ := hok
    refine ⟨.scalar (.s str), ?_⟩
    rw [rootResult_scalar tpl levels versioned hg hw, if_pos hcond, hstr]
    rfl
  · intro x levels root versioned w hwl hwr hg hcond _
    have hw : scalarLike w = true := by
      cases w with
      | scalar s => rfl
      | null => rfl
      | res m gs => exact absurd rfl (fun h => hwr m gs h)
      | list es => exact absurd rfl (fun h => hwl es h)
    refine ⟨w, ?_⟩
    rw [rootResult_scalar tpl levels versioned hg hw, if_neg hcond]
  · intro keep versioned _
    exact ⟨[], reshapeMany_nil tpl keep versioned⟩
  · intro keep versioned e es ih1 ih2 hok
    rw [keepOkMany_cons, Bool.and_eq_true] at hok
    obtain ⟨r, hr⟩ := ih1 hok.1
    obtain ⟨rs, hrs⟩ := ih2 hok.2
    refine ⟨r :: rs, ?_⟩
    rw [reshapeMany_cons, hr, hrs]
    rfl

theorem reshapeOne_missing_single (tpl : Template) (r : Resource) (p : String)
    (versioned : Bool) (hroot : (split1 p).1 ∉ keysF r.fields) :
    reshapeOne tpl r.toVal [p] versioned = .error (.unknownField (split1 p).1) := by
  have hnone : getattr r.toVal (split1 p).1 = none := by
    simp only [Resource.toVal, getattr]
    exact lookupF_eq_none_iff.mpr hroot
  rw [reshapeOne_eq]
  have hroots : dedupFirst ((([p] : List String).map split1).map (fun q => q.1)) =
      [(split1 p).1] := by
    simp [dedupFirst]
  rw [hroots, reshapeRoots_cons,
    rootResult_none tpl (([p] : List String).map split1) versioned hnone]
  rfl

/-- C3: a kept path whose root is not a field of the source tree makes reshape
fail with an UnknownField error rather than silently skipping the root: some
missing root is always reported, and a single missing path is reported by
name; conversely, when every root named in the kept paths is present on the
tree and, recursively, on the subtrees the traversal visits (`keepOkOne`), no
such error is signalled. -/
theorem claim3_unknown_field :
    (∀ (tpl : Template) (r : Resource) (keep : List String) (versioned : Bool),
       (∃ p ∈ keep, (split1 p).1 ∉ keysF r.fields) →
       ∃ e, reshapeOne tpl r.toVal keep versioned = .error (.unknownField e)) ∧
    (∀ (tpl : Template) (r : Resource) (p : String) (versioned : Bool),
       (split1 p).1 ∉ keysF r.fields →
       reshapeOne tpl r.toVal [p] versioned = .error (.unknownField (split1 p).1)) ∧
    (∀ (tpl : Template) (x : Val) (keep : List String) (versioned : Bool),
       keepOkOne tpl x keep versioned = true →
       ∃ y, reshapeOne tpl x keep versioned = .ok y) := by
  refine ⟨?_, ?_, ?_⟩
  · intro tpl r keep versioned hmiss
    obtain ⟨p, hp, hroot⟩ := hmiss
    rcases hres : reshapeOne tpl r.toVal keep versioned with e | y
    · cases e with
      | unknownField s => exact ⟨s, rfl⟩
    · exfalso
      rw [reshapeOne_eq, exceptMap_ok] at hres
      obtain ⟨fs, hroots, _⟩ := hres
      have hmem : (split1 p).1 ∈ dedupFirst ((keep.map split1).map (fun q => q.1)) := by
        rw [dedupFirst_mem]
        exact List.mem_map_of_mem _ (List.mem_map_of_mem _ hp)
      obtain ⟨w, hw⟩ := reshapeRoots_ok_getattr hroots _ hmem
      simp only [Resource.toVal, getattr] at hw
      exact hroot (lookupF_mem_keys hw)
  · exact reshapeOne_missing_single
  · exact keepOk_sound

/-- C3 witness: the general statements applied to a concrete tree: reshaping
along a nonexistent path signals UnknownField naming it, and a present root
reshapes without error. -/
theorem claim3_witness :
    reshapeOne [] rP1.toVal ["nonexistent"] false =
      .error (.unknownField (split1 "nonexistent").1) ∧
    ∃ y, reshapeOne [] rP1.toVal ["p"] false = .ok y := by
  constructor
  · exact claim3_unknown_field.2.1 [] rP1 "nonexistent" false
      (by simp +decide [split1, split1Chars, keysF, rP1])
  · exact claim3_unknown_field.2.2 [] rP1.toVal ["p"] false
      (by simp +decide [keepOkOne, keepOkRoots, keepOkRoot, keepOkMany, getattr, lookupF,
        split1, split1Chars, dedupFirst, leafsFor, rP1, Resource.toVal])

/-- C7: collect_values translates the reshaper's field-lookup failure into the
caller-chosen error kind meaning the path to follow is invalid: a missing root
yields exactly the caller's error, and any error collect_values ever returns
is the caller's error — the reshaper's UnknownField never escapes. -/
theorem claim7_translated_error :
    (∀ (E : Type) (exc : String → E) (r : Resource) (follow : String),
       (split1 follow).1 ∉ keysF r.fields →
       collect_values (.one r) follow exc = .error (exc "path to follow is incorrect")) ∧
    (∀ (E : Type) (exc : String → E) (data : RData) (follow : String) (e : E),
       collect_values data follow exc = .error e →
       e = exc "path to follow is incorrect") := by
  constructor
  · intro E exc r follow hroot
    have herr := reshapeOne_missing_single [] r follow false hroot
    unfold collect_values
    have : reshape [] (.one r) [follow] false =
        .error (.unknownField (split1 follow).1) := by
      simp only [reshape, herr]
      rfl
    rw [this]
  · intro E exc data follow e h
    unfold collect_values at h
    rcases hres : reshape [] data [follow] false with er | out
    · cases er with
      | unknownField s =>
        rw [hres] at h
        simp only [Except.error.injEq] at h
        exact h.symm
    · rw [hres] at h
      simp at h

/-- C7 witness: the translation applied to a concrete tree and missing path. -/
theorem claim7_witness :
    collect_values (.one rP1) "nonexistent" (fun msg => msg) =
      .error "path to follow is incorrect" := by
  exact claim7_translated_error.1 String (fun msg => msg) rP1 "nonexistent"
    (by simp +decide [split1, split1Chars, keysF, rP1])

theorem split1Chars_append_dot {cs : List Char} (h : ∀ c ∈ cs, c ≠ '.') :
    split1Chars (cs ++ ['.']) = some (cs, []) := by
  induction cs with
  | nil => simp [split1Chars]
  | cons c cs ih =>
    have hc : c ≠ '.' := h c (List.mem_cons_self c cs)
    have ih2 := ih (fun d hd => h d (List.mem_cons_of_mem c hd))
    simp only [List.cons_append, split1Chars, if_neg hc, List.append_eq, ih2]
    rfl

theorem string_mk_data (s : String) : String.mk s.data = s := by
  cases s
  rfl

theorem split1_append_dot {k : String} (h : ∀ c ∈ k.data, c ≠ '.') :
    split1 (k ++ ".") = (k, some "") := by
  unfold split1
  have hdata : (k ++ ".").data = k.data ++ ['.'] := by
    simp [String.data_append]
  rw [hdata, split1Chars_append_dot h]

/-- C9 counterexample: neither the empty path nor a trailing-delimiter path
produces a distinct PathSyntaxError kind: on a tree whose field p holds a
scalar, reshaping along "p." silently succeeds (the empty leaf is ignored),
and reshaping along the empty path fails with the ordinary UnknownField error
naming the empty string. -/
theorem claim9_counterexample :
    reshapeOne [] rP1.toVal ["p."] false = .ok ⟨defaultMeta, [("p", .scalar (.i 1))]⟩ ∧
    reshapeOne [] rP1.toVal [""] false = .error (.unknownField "") := by
  constructor <;>
    simp +decide [reshapeOne, reshapeRoots, rootResult, reshapeMany, formatT, getattr,
      lookupF, split1, split1Chars, dedupFirst, leafsFor, renderScalar, Resource.toVal,
      rP1, Except.map, Except.bind, bind]

/-- C9 amended: there is no distinct PathSyntaxError kind; the empty segment
is treated as an ordinary field name.  The empty path fails with the standard
UnknownField error naming the empty root (and collect_values translates it to
its invalid-path error); a trailing-delimiter path is not an error by itself:
the empty leaf is ignored when the root's value is a scalar (silent success)
and causes UnknownField naming the empty string when the root's value is a
nested tree without an empty-named field. -/
theorem claim9_amended :
    (∀ (tpl : Template) (r : Resource) (versioned : Bool),
       "" ∉ keysF r.fields →
       reshapeOne tpl r.toVal [""] versioned = .error (.unknownField "")) ∧
    (∀ (tpl : Template) (r : Resource) (k : String) (w : Val) (versioned : Bool),
       getattr r.toVal k = some w → scalarLike w = true →
       ¬(k = "id" ∧ versioned = true) → (∀ c ∈ k.data, c ≠ '.') →
       reshapeOne tpl r.toVal [k ++ "."] versioned = .ok ⟨defaultMeta, [(k, w)]⟩) ∧
    (∀ (tpl : Template) (r : Resource) (k : String) (m : RMeta) (gs : Fields)
       (versioned : Bool),
       getattr r.toVal k = some (.res m gs) → "" ∉ keysF gs → (∀ c ∈ k.data, c ≠ '.') →
       reshapeOne tpl r.toVal [k ++ "."] versioned = .error (.unknownField "")) ∧
    (∀ (E : Type) (exc : String → E) (r : Resource),
       "" ∉ keysF r.fields →
       collect_values (.one r) "" exc = .error (exc "path to follow is incorrect")) := by
  refine ⟨?_, ?_, ?_, ?_⟩
  · intro tpl r versioned hroot
    exact reshapeOne_missing_single tpl r "" versioned hroot
  · intro tpl r k w versioned hget hw hcond hdot
    rw [reshapeOne_eq]
    have hlv : (([k ++ "."] : List String).map split1) = [(k, some "")] := by
      simp [split1_append_dot hdot]
    rw [hlv]
    have hroots : dedupFirst (([(k, some "")] : List (String × Option String)).map
        (fun p => p.1)) = [k] := by
      simp [dedupFirst]
    rw [hroots, reshapeRoots_cons,
      rootResult_scalar tpl [(k, some "")] versioned hget hw, if_neg hcond,
      reshapeRoots_nil]
    rfl
  · intro tpl r k m gs versioned hget hsub hdot
    rw [reshapeOne_eq]
    have hlv : (([k ++ "."] : List String).map split1) = [(k, some "")] := by
      simp [split1_append_dot hdot]
    rw [hlv]
    have hroots : dedupFirst (([(k, some "")] : List (String × Option String)).map
        (fun p => p.1)) = [k] := by
      simp [dedupFirst]
    rw [hroots, reshapeRoots_cons, rootResult_res tpl [(k, some "")] versioned hget]
    have hleafs : leafsFor [(k, some "")] k = [""] := by
      simp [leafsFor]
    rw [hleafs]
    have hinner : reshapeOne tpl (Val.res m gs) [""] versioned =
        .error (.unknownField "") :=
      reshapeOne_missing_single tpl ⟨m, gs⟩ "" versioned hsub
    simp only [List.isEmpty_cons, if_false, Bool.false_eq_true, hinner]
    rfl
  · intro E exc r hroot
    have herr := reshapeOne_missing_single [] r "" false hroot
    unfold collect_values
    have : reshape [] (.one r) [""] false = .error (.unknownField "") := by
      simp only [reshape, herr]
      rfl
    rw [this]

/-- C9 witness: the amended statements applied to concrete trees: empty path,
trailing delimiter over a scalar root, trailing delimiter over a nested root,
and the collect_values translation of the empty path. -/
theorem claim9_witness :
    reshapeOne [] rP1.toVal [""] false = .error (.unknownField "") ∧
    reshapeOne [] rP1.toVal ["p" ++ "."] false = .ok ⟨defaultMeta, [("p", .scalar (.i 1))]⟩ ∧
    reshapeOne [] rSh.toVal ["p" ++ "."] false = .error (.unknownField "") ∧
    collect_values (.one rP1) "" (fun msg => msg) =
      .error "path to follow is incorrect" := by
  refine ⟨?_, ?_, ?_, ?_⟩
  · exact claim9_amended.1 [] rP1 false (by simp +decide [keysF, rP1])
  · exact claim9_amended.2.1 [] rP1 "p" (.scalar (.i 1)) false
      (by simp [getattr, lookupF, rP1, Resource.toVal]) (by simp [scalarLike])
      (by simp) (by decide)
  · exact claim9_amended.2.2.1 [] rSh "p"
      ⟨true, true, some "updated", some [("version", .i 1)]⟩
      [("a", .res ⟨true, false, none, none⟩ [("b", .scalar (.i 7))]),
       ("c", .scalar (.s "x"))] false
      (by simp [getattr, lookupF, rSh, Resource.toVal]) (by simp +decide [keysF])
      (by decide)
  · exact claim9_amended.2.2.2 String (fun msg => msg) rP1 (by simp +decide [keysF, rP1])

/-- C6 counterexample: on the tree where the kept sub-object p holds the field
a with the array of scalars 1, 2, the reshaped plain form has the scalar
leaves 1 and 2 (the spec-worded walk collects them, in walk order), but the
source's collect_values returns the empty list: scalars that are direct array
elements are skipped by `_collect`. -/
theorem claim6_counterexample :
    collect_values (.one rArr) "p" (fun msg => msg) = .ok [] ∧
    spec_collect_values (.one rArr) "p" (fun msg => msg) = .ok [.i 1, .i 2] := by
  constructor <;>
    simp +decide [collect_values, spec_collect_values, preparedJson, reshape, reshapeOne,
      reshapeRoots, rootResult, reshapeMany, formatT, getattr, lookupF, split1,
      split1Chars, dedupFirst, leafsFor, renderScalar, Resource.toVal, rArr,
      asJson, asJsonF, asJsonL, collectL, collectF, specWalk, specWalkF, specWalkL,
      Except.map, Except.bind, bind]

theorem collectF_sublist_specWalkF : ∀ (fs : List (String × JVal)),
    List.Sublist (collectF fs) (specWalkF fs) := by
  apply collectF.induct (fun xs => List.Sublist (collectL xs) (specWalkL xs))
    (fun fs => List.Sublist (collectF fs) (specWalkF fs))
  · simp [collectL, specWalkL]
  · intro fs xs ih1 ih2
    simp only [collectL, specWalkL, specWalk]
    exact List.Sublist.append ih1 ih2
  · intro x xs hobj ih
    simp only [collectL, specWalkL]
    exact List.Sublist.trans ih (List.sublist_append_right _ _)
  · simp [collectF, specWalkF]
  · intro k ys fs ih1 ih2
    simp only [collectF, specWalkF, specWalk]
    exact List.Sublist.append ih1 ih2
  · intro k gs fs ih1 ih2
    simp only [collectF, specWalkF, specWalk]
    have h1 : collectL [JVal.obj gs] = collectF gs := by
      simp [collectL]
    have h2 : specWalkL [JVal.obj gs] = specWalkF gs ++ [] := by
      simp [specWalkL, specWalk]
    rw [h1] at ih1
    rw [h2, List.append_nil] at ih1
    rw [h1]
    exact List.Sublist.append ih1 ih2
  · intro k v fs harr hobj ih
    have hv : specWalk v = [v] := by
      cases v <;> simp_all [specWalk]
    simp only [collectF, specWalkF, hv]
    exact List.cons_sublist_cons.mpr ih

theorem collectL_sublist_specWalkL : ∀ (xs : List JVal),
    List.Sublist (collectL xs) (specWalkL xs) := by
  apply collectL.induct (fun xs => List.Sublist (collectL xs) (specWalkL xs))
    (fun fs => List.Sublist (collectF fs) (specWalkF fs))
  · simp [collectL, specWalkL]
  · intro fs xs ih1 ih2
    simp only [collectL, specWalkL, specWalk]
    exact List.Sublist.append ih1 ih2
  · intro x xs hobj ih
    simp only [collectL, specWalkL]
    exact List.Sublist.trans ih (List.sublist_append_right _ _)
  · simp [collectF, specWalkF]
  · intro k ys fs ih1 ih2
    simp only [collectF, specWalkF, specWalk]
    exact List.Sublist.append ih1 ih2
  · intro k gs fs ih1 ih2
    simp only [collectF, specWalkF, specWalk]
    have h1 : collectL [JVal.obj gs] = collectF gs := by
      simp [collectL]
    have h2 : specWalkL [JVal.obj gs] = specWalkF gs ++ [] := by
      simp [specWalkL, specWalk]
    rw [h1] at ih1
    rw [h2, List.append_nil] at ih1
    rw [h1]
    exact List.Sublist.append ih1 ih2
  · intro k v fs harr hobj ih
    have hv : specWalk v = [v] := by
      cases v <;> simp_all [specWalk]
    simp only [collectF, specWalkF, hv]
    exact List.cons_sublist_cons.mpr ih

theorem collectF_eq_specWalkF : ∀ (fs : List (String × JVal)),
    arrObjsF fs = true → collectF fs = specWalkF fs := by
  apply collectF.induct
    (fun xs => arrObjsTop xs = true → collectL xs = specWalkL xs)
    (fun fs => arrObjsF fs = true → collectF fs = specWalkF fs)
  · intro _
    simp [collectL, specWalkL]
  · intro fs xs ih1 ih2 h
    rw [arrObjsTop.eq_def] at h
    simp only [Bool.and_eq_true] at h
    simp only [collectL, specWalkL, specWalk]
    rw [ih1 h.1, ih2 h.2]
  · intro x xs hobj ih h
    exfalso
    rw [arrObjsTop.eq_def] at h
    cases x with
    | obj fs => exact hobj fs rfl
    | s v => simp at h
    | i v => simp at h
    | b v => simp at h
    | null => simp at h
    | arr ys => simp at h
  · intro _
    simp [collectF, specWalkF]
  · intro k ys fs ih1 ih2 h
    rw [arrObjsF.eq_def] at h
    simp only [Bool.and_eq_true] at h
    have hin : arrObjsTop ys = true := by
      have := h.1
      rw [arrObjs.eq_def] at this
      exact this
    simp only [collectF, specWalkF, specWalk]
    rw [ih1 hin, ih2 h.2]
  · intro k gs fs ih1 ih2 h
    rw [arrObjsF.eq_def] at h
    simp only [Bool.and_eq_true] at h
    have hin : arrObjsF gs = true := by
      have := h.1
      rw [arrObjs.eq_def] at this
      exact this
    have htop : arrObjsTop [JVal.obj gs] = true := by
      rw [arrObjsTop.eq_def]
      simp [hin, arrObjsTop]
    have he := ih1 htop
    have h1 : collectL [JVal.obj gs] = collectF gs := by
      simp [collectL]
    have h2 : specWalkL [JVal.obj gs] = specWalkF gs ++ [] := by
      simp [specWalkL, specWalk]
    rw [h1, h2, List.append_nil] at he
    simp only [collectF, specWalkF, specWalk]
    rw [h1, he, ih2 h.2]
  · intro k v fs harr hobj ih h
    rw [arrObjsF.eq_def] at h
    simp only [Bool.and_eq_true] at h
    have hv : specWalk v = [v] := by
      cases v <;> simp_all [specWalk]
    simp only [collectF, specWalkF, hv]
    rw [ih h.2]
    rfl

theorem collectL_eq_specWalkL : ∀ (xs : List JVal),
    arrObjsTop xs = true → collectL xs = specWalkL xs := by
  intro xs h
  induction xs with
  | nil => simp [collectL, specWalkL]
  | cons x xs ih =>
    rw [arrObjsTop.eq_def] at h
    cases x with
    | obj fs =>
      simp only [Bool.and_eq_true] at h
      simp only [collectL, specWalkL, specWalk]
      rw [collectF_eq_specWalkF fs h.1, ih h.2]
    | s v => simp at h
    | i v => simp at h
    | b v => simp at h
    | null => simp at h
    | arr ys => simp at h

/-- C6 amended: collect_values succeeds whenever the reshape step does, and
returns exactly the scalar values occurring as dictionary values of the plain
nested-map form, in depth-first left-to-right order; scalars occurring as
direct array elements (and non-dict array elements generally) are skipped, so
the result is a sublist of the full scalar-leaf walk, with equality whenever
every array element of the plain form is a dict. -/
theorem claim6_amended :
    ∀ (E : Type) (exc : String → E) (data : RData) (follow : String) (out : RData),
      reshape [] data [follow] false = .ok out →
      collect_values data follow exc = .ok (collectL (preparedJson out)) ∧
      List.Sublist (collectL (preparedJson out)) (specWalkL (preparedJson out)) ∧
      (arrObjsTop (preparedJson out) = true →
        collectL (preparedJson out) = specWalkL (preparedJson out)) := by
  intro E exc data follow out hok
  refine ⟨?_, collectL_sublist_specWalkL _, collectL_eq_specWalkL _⟩
  unfold collect_values
  rw [hok]

/-- C6 witness: the amended statement applied to a flat tree, where the walk
and collect_values agree. -/
theorem claim6_witness :
    collect_values (.one rId123) "id" (fun msg => msg) =
      .ok (collectL (preparedJson (.one ⟨defaultMeta, [("id", .scalar (.s "123"))]⟩))) ∧
    List.Sublist
      (collectL (preparedJson (.one ⟨defaultMeta, [("id", .scalar (.s "123"))]⟩)))
      (specWalkL (preparedJson (.one ⟨defaultMeta, [("id", .scalar (.s "123"))]⟩))) ∧
    (arrObjsTop (preparedJson (.one ⟨defaultMeta, [("id", .scalar (.s "123"))]⟩)) = true →
      collectL (preparedJson (.one ⟨defaultMeta, [("id", .scalar (.s "123"))]⟩)) =
        specWalkL (preparedJson (.one ⟨defaultMeta, [("id", .scalar (.s "123"))]⟩))) := by
  refine claim6_amended String (fun msg => msg) (.one rId123) "id"
    (.one ⟨defaultMeta, [("id", .scalar (.s "123"))]⟩) ?_
  simp +decide [reshape, reshapeOne, reshapeRoots, rootResult, reshapeMany, formatT,
    getattr, lookupF, split1, split1Chars, dedupFirst, leafsFor, renderScalar,
    Resource.toVal, rId123, Except.map, Except.bind, bind]

theorem reshape_idem_aux (tpl : Template) :
    ∀ (x : Val) (keep : List String) (v : Bool),
      v = false → ∀ (y : Resource), reshapeOne tpl x keep v = .ok y →
        reshapeOne tpl y.toVal keep v = .ok y := by
  apply reshapeOne.induct tpl
    (fun x keep v =>
      v = false → ∀ y : Resource, reshapeOne tpl x keep v = .ok y →
        reshapeOne tpl y.toVal keep v = .ok y)
    (fun x levels roots v =>
      v = false → roots.Nodup → ∀ fs, reshapeRoots tpl x levels roots v = .ok fs →
        ∀ FS : Fields, (∀ r ∈ roots, lookupF FS r = lookupF fs r) →
          reshapeRoots tpl (.res defaultMeta FS) levels roots v = .ok fs)
    (fun x levels root v =>
      v = false → ∀ nv, rootResult tpl x levels root v = .ok nv →
        ∀ FS : Fields, lookupF FS root = some nv →
          rootResult tpl (.res defaultMeta FS) levels root v = .ok nv)
    (fun xs keep v =>
      v = false → ∀ rs, reshapeMany tpl xs keep v = .ok rs →
        reshapeMany tpl (rs.map Resource.toVal) keep v = .ok rs)
  · intro x keep versioned levels roots ih hv y hok
    rw [reshapeOne_eq, exceptMap_ok] at hok
    obtain ⟨fs, hroots, hy⟩ := hok
    have h2 := ih hv (dedupFirst_nodup _) fs hroots fs (fun r _ => rfl)
    have hyv : y.toVal = Val.res defaultMeta fs := by
      rw [← hy]
      rfl
    rw [reshapeOne_eq, hyv, h2]
    rw [← hy]
    rfl
  · intro x levels versioned hv _ fs hok FS _
    rw [reshapeRoots_nil] at hok
    cases hok
    exact reshapeRoots_nil tpl _ levels versioned
  · intro x levels versioned root rest ih1 ih2 hv hnodup fs hok FS hagree
    rw [reshapeRoots_cons, exceptBind_ok] at hok
    obtain ⟨nv, hnv, h2⟩ := hok
    rw [exceptBind_ok] at h2
    obtain ⟨restF, hrest, h3⟩ := h2
    cases h3
    have hFSroot : lookupF FS root = some nv := by
      rw [hagree root (List.mem_cons_self root rest)]
      simp [lookupF]
    have hr1 := ih1 hv nv hnv FS hFSroot
    have hrootnotin : root ∉ rest := (List.nodup_cons.mp hnodup).1
    have hagree2 : ∀ r ∈ rest, lookupF FS r = lookupF restF r := by
      intro r hr
      rw [hagree r (List.mem_cons_of_mem root hr)]
      have hne : root ≠ r := fun he => hrootnotin (he ▸ hr)
      simp [lookupF, hne]
    have hr2 := ih2 hv (List.nodup_cons.mp hnodup).2 restF hrest FS hagree2
    rw [reshapeRoots_cons, hr1, hr2]
    rfl
  · intro x levels root versioned hg hv nv hok FS hFS
    rw [rootResult_none tpl levels versioned hg] at hok
    cases hok
  · intro x levels root versioned es hg ih hv nv hok FS hFS
    rw [rootResult_list tpl levels versioned hg, exceptMap_ok] at hok
    obtain ⟨rs, hrs, hnv⟩ := hok
    have hFS2 : getattr (Val.res defaultMeta FS) root =
        some (.list (rs.map Resource.toVal)) := by
      simp only [getattr, hFS, hnv]
    rw [rootResult_list tpl levels versioned hFS2, ih hv rs hrs]
    rw [← hnv]
    rfl
  · intro x levels root versioned m gs hg hleafs hv nv hok FS hFS
    rw [rootResult_res tpl levels versioned hg, if_pos hleafs] at hok
    cases hok
    have hFS2 : getattr (Val.res defaultMeta FS) root = some (.res defaultMeta gs) := by
      simp only [getattr, hFS]
    rw [rootResult_res tpl levels versioned hFS2, if_pos hleafs]
  · intro x levels root versioned m gs hg hleafs ih hv nv hok FS hFS
    rw [rootResult_res tpl levels versioned hg, if_neg hleafs, exceptMap_ok] at hok
    obtain ⟨y2, hy2, hnv⟩ := hok
    have hmeta : y2.meta = defaultMeta := reshapeOne_meta hy2
    have hyv : y2.toVal = Val.res defaultMeta y2.fields := by
      rw [Resource.toVal, hmeta]
    have hFS2 : getattr (Val.res defaultMeta FS) root =
        some (.res defaultMeta y2.fields) := by
      simp only [getattr, hFS, ← hnv, hyv]
    rw [rootResult_res tpl levels versioned hFS2, if_neg hleafs]
    have := ih hv y2 hy2
    rw [hyv] at this
    rw [this]
    simp only [Except.map]
    rw [hnv]
  · intro x levels root versioned w hwl hwr hg hcond hv nv hok FS hFS
    rw [hv] at hcond
    simp at hcond
  · intro x levels root versioned w hwl hwr hg hcond hv nv hok FS hFS
    have hw : scalarLike w = true := by
      cases w with
      | scalar s => rfl
      | null => rfl
      | res m gs => exact absurd rfl (fun h => hwr m gs h)
      | list es => exact absurd rfl (fun h => hwl es h)
    rw [rootResult_scalar tpl levels versioned hg hw, if_neg hcond] at hok
    cases hok
    have hFS2 : getattr (Val.res defaultMeta FS) root = some w := by
      simp only [getattr, hFS]
    rw [rootResult_scalar tpl levels versioned hFS2 hw, if_neg hcond]
  · intro keep versioned hv rs hok
    rw [reshapeMany_nil] at hok
    cases hok
    exact reshapeMany_nil tpl keep versioned
  · intro keep versioned e es ih1 ih2 hv rs hok
    rw [reshapeMany_cons, exceptBind_ok] at hok
    obtain ⟨r, hr, h2⟩ := hok
    rw [exceptBind_ok] at h2
    obtain ⟨rs2, hrs2, h3⟩ := h2
    cases h3
    have g1 := ih1 hv r hr
    have g2 := ih2 hv rs2 hrs2
    rw [List.map_cons, reshapeMany_cons, g1, g2]
    rfl

/-- C8: reshape (with the default non-versioned mode) is idempotent: when the
kept paths cover exactly the fields of the first reshape's output (its keys
are exactly the distinct kept roots), reshaping that output again with the
same paths returns it unchanged. -/
theorem claim8_idempotent :
    ∀ (tpl : Template) (x : Val) (keep : List String) (y : Resource),
      reshapeOne tpl x keep false = .ok y →
      keysF y.fields = rootsOf keep →
      reshapeOne tpl y.toVal keep false = .ok y := by
  intro tpl x keep y hok _
  exact reshape_idem_aux tpl x keep false rfl y hok

/-- C8 witness: idempotence at a concrete tree and kept path. -/
theorem claim8_witness : reshapeOne [] ySh.toVal ["p"] false = .ok ySh := by
  refine claim8_idempotent [] rSh.toVal ["p"] ySh ?_ ?_
  · simp +decide [reshapeOne, reshapeRoots, rootResult, reshapeMany, formatT, getattr,
      lookupF, split1, split1Chars, dedupFirst, leafsFor, renderScalar, Resource.toVal,
      rSh, ySh, Except.map, Except.bind, bind]
  · simp +decide [keysF, ySh, rootsOf, split1, split1Chars, dedupFirst]

theorem splitChars_no_head {d0 : Char} (drest : List Char) {cs : List Char}
    (h : ∀ c ∈ cs, c ≠ d0) : splitChars d0 drest cs = [cs] := by
  induction cs with
  | nil => rw [splitChars.eq_def]
  | cons c cs ih =>
    have hc : ¬(d0 = c ∧ List.isPrefixOf drest cs = true) := by
      intro hco
      exact h c (List.mem_cons_self c cs) hco.1.symm
    rw [splitChars.eq_def]
    simp only [if_neg hc]
    rw [ih (fun d hd => h d (List.mem_cons_of_mem c hd))]

theorem splitChars_break {d0 : Char} (drest : List Char) {s : List Char} (t : List Char)
    (h : ∀ c ∈ s, c ≠ d0) :
    splitChars d0 drest (s ++ d0 :: (drest ++ t)) = s :: splitChars d0 drest t := by
  induction s with
  | nil =>
    rw [List.nil_append, splitChars.eq_def]
    have hpre : List.isPrefixOf drest (drest ++ t) = true := by
      rw [List.isPrefixOf_iff_prefix]
      exact List.prefix_append drest t
    simp [hpre, List.drop_left]
  | cons c s ih =>
    have hc : ¬(d0 = c ∧ List.isPrefixOf drest (s ++ d0 :: (drest ++ t)) = true) := by
      intro hco
      exact h c (List.mem_cons_self c s) hco.1.symm
    rw [List.cons_append, splitChars.eq_def]
    simp only [if_neg hc]
    rw [ih (fun d hd => h d (List.mem_cons_of_mem c hd))]

theorem joinSegs_cons2 (delim : String) (s r : String) (rs : List String) :
    joinSegs delim (s :: r :: rs) = s ++ delim ++ joinSegs delim (r :: rs) := rfl

theorem splitFull_eq {delim : String} {d0 : Char} {drest : List Char}
    (hd : delim.data = d0 :: drest) (s : String) :
    splitFull delim s = (splitChars d0 drest s.data).map (fun cs => ⟨cs⟩) := by
  unfold splitFull
  rw [hd]

theorem splitFull_join {delim : String} {d0 : Char} {drest : List Char}
    (hd : delim.data = d0 :: drest) :
    ∀ (segs : List String), segs ≠ [] →
      (∀ seg ∈ segs, ∀ c ∈ seg.data, ¬ c ∈ delim.data) →
      splitFull delim (joinSegs delim segs) = segs := by
  intro segs
  induction segs with
  | nil => intro h; exact absurd rfl h
  | cons s rest ih =>
    intro _ hsafe
    cases rest with
    | nil =>
      have hs : ∀ c ∈ s.data, c ≠ d0 := by
        intro c hc he
        exact hsafe s (List.mem_cons_self s []) c hc (he ▸ (hd ▸ List.mem_cons_self d0 drest))
      have hj : joinSegs delim [s] = s := rfl
      rw [hj, splitFull_eq hd, splitChars_no_head drest hs]
      simp [string_mk_data]
    | cons r rs =>
      have ihr := ih (by simp) (fun seg hseg => hsafe seg (List.mem_cons_of_mem s hseg))
      rw [splitFull_eq hd] at ihr
      have hdata : (s ++ delim ++ joinSegs delim (r :: rs)).data =
          s.data ++ d0 :: (drest ++ (joinSegs delim (r :: rs)).data) := by
        rw [String.data_append, String.data_append, hd]
        simp
      have hs : ∀ c ∈ s.data, c ≠ d0 := by
        intro c hc he
        exact hsafe s (List.mem_cons_self s _) c hc (he ▸ (hd ▸ List.mem_cons_self d0 drest))
      rw [joinSegs_cons2, splitFull_eq hd, hdata, splitChars_break drest _ hs]
      simp only [List.map_cons, string_mk_data]
      rw [ihr]

theorem rowPairs_false (na : List SVal) (t : Resource) :
    rowPairs na false false t = flattenFields na t.fields := by
  unfold rowPairs metaPairs
  have hs : sigil false = fun seg => seg := by
    funext seg
    simp [sigil]
  simp [hs]

theorem flattenFields_path_ne_nil {na : List SVal} {fs : Fields} :
    ∀ pc ∈ flattenFields na fs, pc.1 ≠ [] := by
  induction fs using flattenFields.induct na with
  | case1 => simp [flattenFields]
  | case2 k s fs ih =>
    rw [flattenFields]
    intro pc hpc
    rcases List.mem_cons.mp hpc with h | h
    · rw [h]
      simp
    · exact ih pc h
  | case3 k fs ih =>
    rw [flattenFields]
    intro pc hpc
    rcases List.mem_cons.mp hpc with h | h
    · rw [h]
      simp
    · exact ih pc h
  | case4 k m gs fs ih1 ih2 =>
    rw [flattenFields]
    intro pc hpc
    rcases List.mem_append.mp hpc with h | h
    · obtain ⟨qc, _, hq⟩ := List.mem_map.mp h
      rw [← hq]
      simp
    · exact ih2 pc h
  | case5 k xs fs ih =>
    rw [flattenFields]
    exact ih

theorem tableSafeF_cons (na : List SVal) (dchars : List Char) (k : String) (v : Val)
    (fs : Fields) :
    tableSafeF na dchars ((k, v) :: fs) =
      (k.data.all (fun c => !(dchars.contains c)) && (lookupF fs k).isNone &&
        tableSafeV na dchars v && tableSafeF na dchars fs) := by
  rw [tableSafeF.eq_def]

theorem tableSafeV_res (na : List SVal) (dchars : List Char) (m : RMeta) (fs : Fields) :
    tableSafeV na dchars (.res m fs) =
      (decide (m = defaultMeta) && tableSafeF na dchars fs) := by
  rw [tableSafeV.eq_def]

theorem flattenFields_chars {na : List SVal} {dchars : List Char} {fs : Fields} :
    tableSafeF na dchars fs = true →
    ∀ pc ∈ flattenFields na fs, ∀ seg ∈ pc.1, ∀ ch ∈ seg.data, ¬ ch ∈ dchars := by
  induction fs using flattenFields.induct na with
  | case1 => simp [flattenFields]
  | case2 k s fs ih =>
    intro hsafe pc hpc seg hseg ch hch
    rw [tableSafeF_cons] at hsafe
    simp only [Bool.and_eq_true] at hsafe
    rw [flattenFields] at hpc
    rcases List.mem_cons.mp hpc with h | h
    · rw [h] at hseg
      simp only [List.mem_singleton] at hseg
      rw [hseg] at hch
      have := hsafe.1.1.1
      rw [List.all_eq_true] at this
      have h2 := this ch hch
      simp only [Bool.not_eq_eq_eq_not, Bool.not_true] at h2
      intro hmem
      rw [List.contains] at h2
      rw [List.elem_eq_true_of_mem hmem] at h2
      cases h2
    · exact ih hsafe.2 pc h seg hseg ch hch
  | case3 k fs ih =>
    intro hsafe pc hpc seg hseg ch hch
    rw [tableSafeF_cons] at hsafe
    simp only [Bool.and_eq_true] at hsafe
    rw [flattenFields] at hpc
    rcases List.mem_cons.mp hpc with h | h
    · rw [h] at hseg
      simp only [List.mem_singleton] at hseg
      rw [hseg] at hch
      have := hsafe.1.1.1
      rw [List.all_eq_true] at this
      have h2 := this ch hch
      simp only [Bool.not_eq_eq_eq_not, Bool.not_true] at h2
      intro hmem
      rw [List.contains] at h2
      rw [List.elem_eq_true_of_mem hmem] at h2
      cases h2
    · exact ih hsafe.2 pc h seg hseg ch hch
  | case4 k m gs fs ih1 ih2 =>
    intro hsafe pc hpc seg hseg ch hch
    rw [tableSafeF_cons] at hsafe
    simp only [Bool.and_eq_true] at hsafe
    have hsub : tableSafeF na dchars gs = true := by
      have := hsafe.1.2
      rw [tableSafeV_res] at this
      simp only [Bool.and_eq_true] at this
      exact this.2
    rw [flattenFields] at hpc
    rcases List.mem_append.mp hpc with h | h
    · obtain ⟨qc, hqc, hq⟩ := List.mem_map.mp h
      rw [← hq] at hseg
      simp only at hseg
      rcases List.mem_cons.mp hseg with hs | hs
      · rw [hs] at hch
        have := hsafe.1.1.1
        rw [List.all_eq_true] at this
        have h2 := this ch hch
        simp only [Bool.not_eq_eq_eq_not, Bool.not_true] at h2
        intro hmem
        rw [List.contains] at h2
        rw [List.elem_eq_true_of_mem hmem] at h2
        cases h2
      · exact ih1 hsub qc hqc seg hs ch hch
    · exact ih2 hsafe.2 pc h seg hseg ch hch
  | case5 k xs fs ih =>
    intro hsafe pc hpc seg hseg ch hch
    rw [tableSafeF_cons] at hsafe
    simp only [Bool.and_eq_true] at hsafe
    rw [flattenFields] at hpc
    exact ih hsafe.2 pc hpc seg hseg ch hch

theorem pathDisj_symm {p q : List String} (h : pathDisj p q) : pathDisj q p :=
  ⟨h.2, h.1⟩

theorem pathDisj_of_head_ne {h1 h2 : String} {t1 t2 : List String} (hne : h1 ≠ h2) :
    pathDisj (h1 :: t1) (h2 :: t2) := by
  constructor
  · intro hp
    exact hne (List.cons_prefix_cons.mp hp).1
  · intro hp
    exact hne ((List.cons_prefix_cons.mp hp).1).symm

theorem pathDisj_cons {k : String} {p q : List String} (h : pathDisj p q) :
    pathDisj (k :: p) (k :: q) := by
  constructor
  · intro hp
    exact h.1 (List.cons_prefix_cons.mp hp).2
  · intro hp
    exact h.2 (List.cons_prefix_cons.mp hp).2

theorem flattenFields_head_mem {na : List SVal} {fs : Fields} :
    ∀ pc ∈ flattenFields na fs, ∃ h rest, pc.1 = h :: rest ∧ h ∈ keysF fs := by
  induction fs using flattenFields.induct na with
  | case1 => simp [flattenFields]
  | case2 k s fs ih =>
    rw [flattenFields]
    intro pc hpc
    rcases List.mem_cons.mp hpc with h | h
    · exact ⟨k, [], by rw [h], by simp [keysF]⟩
    · obtain ⟨hh, rest, he, hm⟩ := ih pc h
      exact ⟨hh, rest, he, by simp [keysF]; right; simpa [keysF] using hm⟩
  | case3 k fs ih =>
    rw [flattenFields]
    intro pc hpc
    rcases List.mem_cons.mp hpc with h | h
    · exact ⟨k, [], by rw [h], by simp [keysF]⟩
    · obtain ⟨hh, rest, he, hm⟩ := ih pc h
      exact ⟨hh, rest, he, by simp [keysF]; right; simpa [keysF] using hm⟩
  | case4 k m gs fs ih1 ih2 =>
    rw [flattenFields]
    intro pc hpc
    rcases List.mem_append.mp hpc with h | h
    · obtain ⟨qc, _, hq⟩ := List.mem_map.mp h
      refine ⟨k, qc.1, by rw [← hq], by simp [keysF]⟩
    · obtain ⟨hh, rest, he, hm⟩ := ih2 pc h
      exact ⟨hh, rest, he, by simp [keysF]; right; simpa [keysF] using hm⟩
  | case5 k xs fs ih =>
    rw [flattenFields]
    intro pc hpc
    obtain ⟨hh, rest, he, hm⟩ := ih pc hpc
    exact ⟨hh, rest, he, by simp [keysF]; right; simpa [keysF] using hm⟩

theorem flattenFields_pairwise {na : List SVal} {dchars : List Char} {fs : Fields} :
    tableSafeF na dchars fs = true →
    List.Pairwise (fun a b => pathDisj a.1 b.1) (flattenFields na fs) := by
  induction fs using flattenFields.induct na with
  | case1 =>
    intro _
    simp [flattenFields]
  | case2 k s fs ih =>
    intro hs
    rw [tableSafeF_cons] at hs
    simp only [Bool.and_eq_true] at hs
    have hk : k ∉ keysF fs := by
      rw [← lookupF_eq_none_iff]
      rcases hl : lookupF fs k with _ | w
      · rfl
      · rw [hl] at hs
        simp [Option.isNone] at hs
    rw [flattenFields]
    refine List.Pairwise.cons ?_ (ih hs.2)
    intro pc hpc
    obtain ⟨hh, rest, he, hm⟩ := flattenFields_head_mem pc hpc
    rw [he]
    exact pathDisj_of_head_ne (fun hkh => hk (hkh ▸ hm))
  | case3 k fs ih =>
    intro hs
    rw [tableSafeF_cons] at hs
    simp only [Bool.and_eq_true] at hs
    have hk : k ∉ keysF fs := by
      rw [← lookupF_eq_none_iff]
      rcases hl : lookupF fs k with _ | w
      · rfl
      · rw [hl] at hs
        simp [Option.isNone] at hs
    rw [flattenFields]
    refine List.Pairwise.cons ?_ (ih hs.2)
    intro pc hpc
    obtain ⟨hh, rest, he, hm⟩ := flattenFields_head_mem pc hpc
    rw [he]
    exact pathDisj_of_head_ne (fun hkh => hk (hkh ▸ hm))
  | case4 k m gs fs ih1 ih2 =>
    intro hs
    rw [tableSafeF_cons] at hs
    simp only [Bool.and_eq_true] at hs
    have hk : k ∉ keysF fs := by
      rw [← lookupF_eq_none_iff]
      rcases hl : lookupF fs k with _ | w
      · rfl
      · rw [hl] at hs
        simp [Option.isNone] at hs
    have hsub : tableSafeF na dchars gs = true := by
      have := hs.1.2
      rw [tableSafeV_res] at this
      simp only [Bool.and_eq_true] at this
      exact this.2
    rw [flattenFields]
    rw [List.pairwise_append]
    refine ⟨?_, ih2 hs.2, ?_⟩
    · rw [List.pairwise_map]
      refine List.Pairwise.imp ?_ (ih1 hsub)
      intro a b hab
      exact pathDisj_cons hab
    · intro a ha b hb
      obtain ⟨qc, _, hq⟩ := List.mem_map.mp ha
      obtain ⟨hh, rest, he, hm⟩ := flattenFields_head_mem b hb
      rw [← hq]
      simp only
      rw [he]
      exact pathDisj_of_head_ne (fun hkh => hk (hkh ▸ hm))
  | case5 k xs fs ih =>
    intro hs
    rw [tableSafeF_cons] at hs
    simp only [Bool.and_eq_true] at hs
    rw [flattenFields]
    exact ih hs.2

theorem goodF_cons (k : String) (v : Val) (fs : Fields) :
    goodF ((k, v) :: fs) = ((lookupF fs k).isNone && goodV v && goodF fs) := by
  rw [goodF.eq_def]

theorem goodV_res (m : RMeta) (fs : Fields) :
    goodV (.res m fs) = (decide (m = defaultMeta) && !fs.isEmpty && goodF fs) := by
  rw [goodV.eq_def]

theorem goodV_scalar (s : SVal) : goodV (.scalar s) = true := by
  rw [goodV.eq_def]

theorem mem_keys_normalize {na : List SVal} {fs : Fields} {k : String} :
    k ∈ keysF (normalizeFields na fs) → k ∈ keysF fs := by
  induction fs using normalizeFields.induct na with
  | case1 => simp [normalizeFields]
  | case2 k2 s fs hna ih =>
    rw [normalizeFields, if_pos hna]
    intro h
    simp only [keysF, List.map_cons, List.mem_cons]
    right
    exact ih h
  | case3 k2 s fs hna ih =>
    rw [normalizeFields, if_neg hna]
    intro h
    simp only [keysF, List.map_cons, List.mem_cons] at h ⊢
    rcases h with h | h
    · exact Or.inl h
    · exact Or.inr (ih h)
  | case4 k2 fs ih =>
    rw [normalizeFields]
    intro h
    simp only [keysF, List.map_cons, List.mem_cons]
    right
    exact ih h
  | case5 k2 m gs fs hgs ih1 ih2 =>
    rw [normalizeFields, if_pos hgs]
    intro h
    simp only [keysF, List.map_cons, List.mem_cons]
    right
    exact ih2 h
  | case6 k2 m gs fs hgs ih1 ih2 =>
    rw [normalizeFields, if_neg hgs]
    intro h
    simp only [keysF, List.map_cons, List.mem_cons] at h ⊢
    rcases h with h | h
    · exact Or.inl h
    · exact Or.inr (ih2 h)
  | case7 k2 xs fs ih =>
    rw [normalizeFields]
    intro h
    simp only [keysF, List.map_cons, List.mem_cons] at h ⊢
    rcases h with h | h
    · exact Or.inl h
    · exact Or.inr (ih h)

theorem lookupF_normalize_none {na : List SVal} {fs : Fields} {k : String}
    (hk : (lookupF fs k).isNone = true) :
    lookupF (normalizeFields na fs) k = none := by
  rw [lookupF_eq_none_iff]
  intro hmem
  have h1 := mem_keys_normalize hmem
  have h2 : lookupF fs k = none := by
    rcases h : lookupF fs k with _ | w
    · rfl
    · rw [h] at hk
      simp [Option.isNone] at hk
  exact (lookupF_eq_none_iff.mp h2) h1

theorem goodF_normalize {na : List SVal} {dchars : List Char} {fs : Fields} :
    tableSafeF na dchars fs = true → goodF (normalizeFields na fs) = true := by
  induction fs using normalizeFields.induct na with
  | case1 =>
    intro _
    simp [normalizeFields, goodF]
  | case2 k s fs hna ih =>
    intro hs
    rw [tableSafeF_cons] at hs
    simp only [Bool.and_eq_true] at hs
    rw [normalizeFields, if_pos hna]
    exact ih hs.2
  | case3 k s fs hna ih =>
    intro hs
    rw [tableSafeF_cons] at hs
    simp only [Bool.and_eq_true] at hs
    rw [normalizeFields, if_neg hna, goodF_cons]
    simp only [Bool.and_eq_true]
    refine ⟨⟨?_, goodV_scalar s⟩, ih hs.2⟩
    rw [lookupF_normalize_none hs.1.1.2]
    rfl
  | case4 k fs ih =>
    intro hs
    rw [tableSafeF_cons] at hs
    simp only [Bool.and_eq_true] at hs
    rw [normalizeFields]
    exact ih hs.2
  | case5 k m gs fs hgs ih1 ih2 =>
    intro hs
    rw [tableSafeF_cons] at hs
    simp only [Bool.and_eq_true] at hs
    rw [normalizeFields, if_pos hgs]
    exact ih2 hs.2
  | case6 k m gs fs hgs ih1 ih2 =>
    intro hs
    rw [tableSafeF_cons] at hs
    simp only [Bool.and_eq_true] at hs
    have hsv := hs.1.2
    rw [tableSafeV_res] at hsv
    simp only [Bool.and_eq_true] at hsv
    rw [normalizeFields, if_neg hgs, goodF_cons]
    simp only [Bool.and_eq_true]
    have hgood : goodV (Val.res m (normalizeFields na gs)) = true := by
      rw [goodV_res]
      simp only [Bool.and_eq_true]
      refine ⟨⟨hsv.1, ?_⟩, ih1 hsv.2⟩
      simp only [Bool.not_eq_eq_eq_not, Bool.not_true]
      rcases h : List.isEmpty (normalizeFields na gs)
      · rfl
      · exact absurd h hgs
    refine ⟨⟨?_, hgood⟩, ih2 hs.2⟩
    rw [lookupF_normalize_none hs.1.1.2]
    rfl
  | case7 k xs fs ih =>
    intro hs
    rw [tableSafeF_cons] at hs
    simp only [Bool.and_eq_true] at hs
    have := hs.1.2
    rw [tableSafeV.eq_def] at this
    simp at this

theorem flattenFields_filterMap_eq {na : List SVal} {fs : Fields} :
    (flattenFields na fs).filterMap (fun pc => pc.2.map (fun v => (pc.1, v))) =
      flatP (normalizeFields na fs) := by
  induction fs using normalizeFields.induct na with
  | case1 => simp [flattenFields, normalizeFields, flatP]
  | case2 k s fs hna ih =>
    rw [flattenFields, normalizeFields, if_pos hna, if_pos hna]
    rw [List.filterMap_cons_none rfl]
    exact ih
  | case3 k s fs hna ih =>
    rw [flattenFields, normalizeFields, if_neg hna, if_neg hna]
    have hstep : List.filterMap (fun pc => Option.map (fun v => (pc.1, v)) pc.2)
        ((([k] : List String), some s) :: flattenFields na fs) =
        ([k], s) :: List.filterMap (fun pc => Option.map (fun v => (pc.1, v)) pc.2)
          (flattenFields na fs) :=
      List.filterMap_cons_some rfl
    rw [hstep, flatP, ih]
  | case4 k fs ih =>
    rw [flattenFields, normalizeFields]
    rw [List.filterMap_cons_none rfl]
    exact ih
  | case5 k m gs fs hgs ih1 ih2 =>
    rw [flattenFields, normalizeFields, if_pos hgs]
    rw [List.filterMap_append]
    have hgroup : (List.map (fun pc => (k :: pc.1, pc.2)) (flattenFields na gs)).filterMap
        (fun pc => pc.2.map (fun v => (pc.1, v))) =
        (flatP (normalizeFields na gs)).map (fun pv => (k :: pv.1, pv.2)) := by
      rw [List.filterMap_map, ← ih1, List.map_filterMap]
      congr 1
      funext pc
      rcases pc with ⟨p, c⟩
      cases c <;> simp
    rw [hgroup, ih2]
    rw [List.isEmpty_iff] at hgs
    rw [hgs]
    simp [flatP]
  | case6 k m gs fs hgs ih1 ih2 =>
    rw [flattenFields, normalizeFields, if_neg hgs]
    rw [List.filterMap_append]
    have hgroup : (List.map (fun pc => (k :: pc.1, pc.2)) (flattenFields na gs)).filterMap
        (fun pc => pc.2.map (fun v => (pc.1, v))) =
        (flatP (normalizeFields na gs)).map (fun pv => (k :: pv.1, pv.2)) := by
      rw [List.filterMap_map, ← ih1, List.map_filterMap]
      congr 1
      funext pc
      rcases pc with ⟨p, c⟩
      cases c <;> simp
    rw [hgroup, ih2]
    rcases hn : normalizeFields na gs with _ | ⟨g, gs2⟩
    · rw [hn] at hgs
      simp [List.isEmpty] at hgs
    · rw [flatP]
  | case7 k xs fs ih =>
    rw [flattenFields, normalizeFields, flatP]
    exact ih

theorem keysF_mem_cons {kv : String × Val} {fs : Fields} {h : String}
    (hm : h ∈ keysF fs) : h ∈ keysF (kv :: fs) := by
  simp only [keysF, List.map_cons, List.mem_cons]
  right
  simpa [keysF] using hm

theorem flatP_path_ne_nil {fs : Fields} : ∀ pv ∈ flatP fs, pv.1 ≠ [] := by
  induction fs using flatP.induct with
  | case1 => simp [flatP]
  | case2 k s fs ih =>
    rw [flatP]
    intro pv hpv
    rcases List.mem_cons.mp hpv with h | h
    · rw [h]
      simp
    · exact ih pv h
  | case3 k fs ih =>
    rw [flatP]
    exact ih
  | case4 k m gs fs ih1 ih2 =>
    rw [flatP]
    intro pv hpv
    rcases List.mem_append.mp hpv with h | h
    · obtain ⟨qv, _, hq⟩ := List.mem_map.mp h
      rw [← hq]
      simp
    · exact ih2 pv h
  | case5 k xs fs ih =>
    rw [flatP]
    exact ih

theorem flatP_head_mem {fs : Fields} :
    ∀ pv ∈ flatP fs, ∃ h rest, pv.1 = h :: rest ∧ h ∈ keysF fs := by
  induction fs using flatP.induct with
  | case1 => simp [flatP]
  | case2 k s fs ih =>
    rw [flatP]
    intro pv hpv
    rcases List.mem_cons.mp hpv with h | h
    · exact ⟨k, [], by rw [h], by simp [keysF]⟩
    · obtain ⟨hh, rest, he, hm⟩ := ih pv h
      exact ⟨hh, rest, he, keysF_mem_cons hm⟩
  | case3 k fs ih =>
    rw [flatP]
    intro pv hpv
    obtain ⟨hh, rest, he, hm⟩ := ih pv hpv
    exact ⟨hh, rest, he, keysF_mem_cons hm⟩
  | case4 k m gs fs ih1 ih2 =>
    rw [flatP]
    intro pv hpv
    rcases List.mem_append.mp hpv with h | h
    · obtain ⟨qv, _, hq⟩ := List.mem_map.mp h
      exact ⟨k, qv.1, by rw [← hq], by simp [keysF]⟩
    · obtain ⟨hh, rest, he, hm⟩ := ih2 pv h
      exact ⟨hh, rest, he, keysF_mem_cons hm⟩
  | case5 k xs fs ih =>
    rw [flatP]
    intro pv hpv
    obtain ⟨hh, rest, he, hm⟩ := ih pv hpv
    exact ⟨hh, rest, he, keysF_mem_cons hm⟩

theorem flatP_append (fs gs : Fields) : flatP (fs ++ gs) = flatP fs ++ flatP gs := by
  induction fs using flatP.induct with
  | case1 => simp [flatP]
  | case2 k s fs ih =>
    rw [List.cons_append, flatP, flatP, ih]
    rfl
  | case3 k fs ih =>
    rw [List.cons_append, flatP, flatP, ih]
  | case4 k m gs2 fs ih1 ih2 =>
    rw [List.cons_append, flatP, flatP, ih2, List.append_assoc]
  | case5 k xs fs ih =>
    rw [List.cons_append, flatP, flatP, ih]

theorem flatP_freshPath {p : List String} (v : SVal) (h : p ≠ []) :
    flatP (freshPath p v) = [(p, v)] := by
  induction p with
  | nil => exact absurd rfl h
  | cons k rest ih =>
    cases rest with
    | nil => simp [freshPath, flatP]
    | cons k2 r2 =>
      rw [freshPath, flatP, flatP, ih (by simp)]
      simp [flatP]

theorem goodF_ne_nil_flatP {fs : Fields} :
    goodF fs = true → fs ≠ [] → flatP fs ≠ [] := by
  induction fs using flatP.induct with
  | case1 => intro _ h; exact absurd rfl h
  | case2 k s fs ih =>
    intro _ _
    rw [flatP]
    simp
  | case3 k fs ih =>
    intro hg _
    rw [goodF_cons] at hg
    simp only [Bool.and_eq_true] at hg
    have := hg.1.2
    rw [goodV.eq_def] at this
    simp at this
  | case4 k m gs fs ih1 ih2 =>
    intro hg _
    rw [goodF_cons] at hg
    simp only [Bool.and_eq_true] at hg
    have hv := hg.1.2
    rw [goodV_res] at hv
    simp only [Bool.and_eq_true] at hv
    have hgs : gs ≠ [] := by
      intro he
      rw [he] at hv
      simp [List.isEmpty] at hv
    have := ih1 hv.2 hgs
    rw [flatP]
    intro happ
    rcases List.append_eq_nil.mp happ with ⟨h1, _⟩
    exact this (List.map_eq_nil_iff.mp h1)
  | case5 k xs fs ih =>
    intro hg _
    rw [goodF_cons] at hg
    simp only [Bool.and_eq_true] at hg
    have := hg.1.2
    rw [goodV.eq_def] at this
    simp at this

theorem goodF_nodup_keys {fs : Fields} (hg : goodF fs = true) : (keysF fs).Nodup := by
  induction fs with
  | nil => simp [keysF]
  | cons kv fs ih =>
    obtain ⟨k, v⟩ := kv
    rw [goodF_cons] at hg
    simp only [Bool.and_eq_true] at hg
    simp only [keysF, List.map_cons]
    refine List.Nodup.cons ?_ (ih hg.2)
    intro hmem
    have h2 : lookupF fs k = none := by
      rcases h : lookupF fs k with _ | w
      · rfl
      · rw [h] at hg
        simp [Option.isNone] at hg
    exact (lookupF_eq_none_iff.mp h2) (by simpa [keysF] using hmem)

theorem goodF_lookup {fs : Fields} {k : String} {w : Val}
    (hg : goodF fs = true) (hl : lookupF fs k = some w) : goodV w = true := by
  induction fs with
  | nil => simp [lookupF] at hl
  | cons kv fs ih =>
    obtain ⟨k2, v⟩ := kv
    rw [goodF_cons] at hg
    simp only [Bool.and_eq_true] at hg
    simp only [lookupF] at hl
    split at hl
    · cases hl
      exact hg.1.2
    · exact ih hg.2 hl

theorem mem_lookupF_of_nodup {fs : Fields} {k : String} {v : Val}
    (hn : (keysF fs).Nodup) (hm : (k, v) ∈ fs) : lookupF fs k = some v := by
  induction fs with
  | nil => simp at hm
  | cons kv fs ih =>
    obtain ⟨k2, w⟩ := kv
    simp only [keysF, List.map_cons, List.nodup_cons] at hn
    rcases List.mem_cons.mp hm with h | h
    · cases h
      simp [lookupF]
    · have hne : k2 ≠ k := by
        intro he
        exact hn.1 (by rw [he]; exact List.mem_map_of_mem _ h)
      simp only [lookupF, if_neg hne]
      exact ih (hn.2) h

theorem lookupF_mem {fs : Fields} {k : String} {v : Val}
    (h : lookupF fs k = some v) : (k, v) ∈ fs := by
  induction fs with
  | nil => simp [lookupF] at h
  | cons kv fs ih =>
    obtain ⟨k2, w⟩ := kv
    simp only [lookupF] at h
    split at h
    · cases h
      have : k2 = k := by assumption
      rw [this]
      exact List.mem_cons_self _ _
    · exact List.mem_cons_of_mem _ (ih h)

theorem subPairs_append (k : String) (ps qs : List (List String × SVal)) :
    subPairs k (ps ++ qs) = subPairs k ps ++ subPairs k qs := by
  unfold subPairs
  rw [List.filterMap_append]

theorem subPairs_cons_skip {k k2 : String} {p : List String} {v : SVal}
    {ps : List (List String × SVal)} (hne : k2 ≠ k) :
    subPairs k ((k2 :: p, v) :: ps) = subPairs k ps := by
  unfold subPairs
  rw [List.filterMap_cons_none]
  simp [hne]

theorem subPairs_cons_hit {k : String} {p : List String} {v : SVal}
    {ps : List (List String × SVal)} :
    subPairs k ((k :: p, v) :: ps) = (p, v) :: subPairs k ps := by
  unfold subPairs
  rw [List.filterMap_cons_some]
  simp

theorem subPairs_map_prefix (k : String) (ps : List (List String × SVal)) :
    subPairs k (ps.map (fun pv => (k :: pv.1, pv.2))) = ps := by
  induction ps with
  | nil => rfl
  | cons pv ps ih =>
    rw [List.map_cons, subPairs_cons_hit, ih]

theorem subPairs_map_prefix_ne {k k2 : String} (hne : k2 ≠ k)
    (ps : List (List String × SVal)) :
    subPairs k (ps.map (fun pv => (k2 :: pv.1, pv.2))) = [] := by
  induction ps with
  | nil => rfl
  | cons pv ps ih =>
    rw [List.map_cons, subPairs_cons_skip hne, ih]

theorem subPairs_eq_nil {k : String} {ps : List (List String × SVal)}
    (h : ∀ pv ∈ ps, ∀ rest, pv.1 ≠ k :: rest) : subPairs k ps = [] := by
  induction ps with
  | nil => rfl
  | cons pv ps ih =>
    obtain ⟨p, v⟩ := pv
    cases p with
    | nil =>
      unfold subPairs
      rw [List.filterMap_cons_none rfl]
      exact ih (fun q hq => h q (List.mem_cons_of_mem _ hq))
    | cons k2 rest =>
      have hne : k2 ≠ k := by
        intro he
        exact h (k2 :: rest, v) (List.mem_cons_self _ _) rest (by rw [he])
      rw [subPairs_cons_skip hne]
      exact ih (fun q hq => h q (List.mem_cons_of_mem _ hq))

theorem mem_of_mem_subPairs {k : String} {ps : List (List String × SVal)} :
    ∀ pv ∈ subPairs k ps, (k :: pv.1, pv.2) ∈ ps := by
  intro pv hpv
  unfold subPairs at hpv
  obtain ⟨qv, hqv, hf⟩ := List.mem_filterMap.mp hpv
  obtain ⟨p, w⟩ := qv
  cases p with
  | nil => simp at hf
  | cons k2 rest =>
    simp only at hf
    split at hf
    · next he =>
      injection hf with h1
      rw [he] at hqv
      rw [← h1]
      exact hqv
    · cases hf

theorem subPairs_flatP_nil {fs : Fields} {k : String} (hk : k ∉ keysF fs) :
    subPairs k (flatP fs) = [] := by
  refine subPairs_eq_nil ?_
  intro pv hpv rest he
  obtain ⟨hh, r2, he2, hm⟩ := flatP_head_mem pv hpv
  rw [he2] at he
  cases he
  exact hk hm

theorem lookupF_isNone_notmem {fs : Fields} {k : String}
    (h : (lookupF fs k).isNone = true) : k ∉ keysF fs := by
  have h2 : lookupF fs k = none := by
    rcases hl : lookupF fs k with _ | w
    · rfl
    · rw [hl] at h
      simp [Option.isNone] at h
  exact lookupF_eq_none_iff.mp h2

theorem subPairs_flatP_res {fs : Fields} {k : String} {m : RMeta} {ts : Fields}
    (hg : goodF fs = true) (hl : lookupF fs k = some (.res m ts)) :
    subPairs k (flatP fs) = flatP ts := by
  induction fs using flatP.induct with
  | case1 => simp [lookupF] at hl
  | case2 k2 s fs ih =>
    rw [goodF_cons] at hg
    simp only [Bool.and_eq_true] at hg
    simp only [lookupF] at hl
    split at hl
    · cases hl
    · have hne : k2 ≠ k := by assumption
      rw [flatP, subPairs_cons_skip hne]
      exact ih hg.2 hl
  | case3 k2 fs ih =>
    rw [goodF_cons] at hg
    simp only [Bool.and_eq_true] at hg
    have := hg.1.2
    rw [goodV.eq_def] at this
    simp at this
  | case4 k2 m2 gs fs ih1 ih2 =>
    rw [goodF_cons] at hg
    simp only [Bool.and_eq_true] at hg
    simp only [lookupF] at hl
    rw [flatP, subPairs_append]
    split at hl
    · cases hl
      have hk2 : k2 = k := by assumption
      rw [hk2, subPairs_map_prefix]
      rw [subPairs_flatP_nil (lookupF_isNone_notmem (hk2 ▸ hg.1.1))]
      rw [List.append_nil]
    · have hne : k2 ≠ k := by assumption
      rw [subPairs_map_prefix_ne hne, List.nil_append]
      exact ih2 hg.2 hl
  | case5 k2 xs fs ih =>
    rw [goodF_cons] at hg
    simp only [Bool.and_eq_true] at hg
    have := hg.1.2
    rw [goodV.eq_def] at this
    simp at this

theorem subPairs_flatP_scalar {fs : Fields} {k : String} {s : SVal}
    (hg : goodF fs = true) (hl : lookupF fs k = some (.scalar s)) :
    subPairs k (flatP fs) = [([], s)] := by
  induction fs using flatP.induct with
  | case1 => simp [lookupF] at hl
  | case2 k2 s2 fs ih =>
    rw [goodF_cons] at hg
    simp only [Bool.and_eq_true] at hg
    simp only [lookupF] at hl
    split at hl
    · cases hl
      have hk2 : k2 = k := by assumption
      rw [flatP, hk2, subPairs_cons_hit]
      rw [subPairs_flatP_nil (lookupF_isNone_notmem (hk2 ▸ hg.1.1))]
    · have hne : k2 ≠ k := by assumption
      rw [flatP, subPairs_cons_skip hne]
      exact ih hg.2 hl
  | case3 k2 fs ih =>
    rw [goodF_cons] at hg
    simp only [Bool.and_eq_true] at hg
    have := hg.1.2
    rw [goodV.eq_def] at this
    simp at this
  | case4 k2 m2 gs fs ih1 ih2 =>
    rw [goodF_cons] at hg
    simp only [Bool.and_eq_true] at hg
    simp only [lookupF] at hl
    rw [flatP, subPairs_append]
    split at hl
    · cases hl
    · have hne : k2 ≠ k := by assumption
      rw [subPairs_map_prefix_ne hne, List.nil_append]
      exact ih2 hg.2 hl
  | case5 k2 xs fs ih =>
    rw [goodF_cons] at hg
    simp only [Bool.and_eq_true] at hg
    have := hg.1.2
    rw [goodV.eq_def] at this
    simp at this

theorem flatP_mem_scalar {fs : Fields} {k : String} {s : SVal}
    (hl : lookupF fs k = some (.scalar s)) : ([k], s) ∈ flatP fs := by
  induction fs using flatP.induct with
  | case1 => simp [lookupF] at hl
  | case2 k2 s2 fs ih =>
    simp only [lookupF] at hl
    rw [flatP]
    split at hl
    · cases hl
      have hk2 : k2 = k := by assumption
      rw [hk2]
      exact List.mem_cons_self _ _
    · exact List.mem_cons_of_mem _ (ih hl)
  | case3 k2 fs ih =>
    simp only [lookupF] at hl
    rw [flatP]
    split at hl
    · cases hl
    · exact ih hl
  | case4 k2 m2 gs fs ih1 ih2 =>
    simp only [lookupF] at hl
    rw [flatP]
    split at hl
    · cases hl
    · exact List.mem_append_right _ (ih2 hl)
  | case5 k2 xs fs ih =>
    simp only [lookupF] at hl
    rw [flatP]
    split at hl
    · cases hl
    · exact ih hl

theorem flatP_scalar_lookup {fs : Fields} {k : String} {s : SVal}
    (hg : goodF fs = true) (hm : ([k], s) ∈ flatP fs) :
    lookupF fs k = some (.scalar s) := by
  induction fs using flatP.induct with
  | case1 => simp [flatP] at hm
  | case2 k2 s2 fs ih =>
    rw [goodF_cons] at hg
    simp only [Bool.and_eq_true] at hg
    rw [flatP] at hm
    rcases List.mem_cons.mp hm with h | h
    · have h1 : k2 = k ∧ s2 = s := by
        rw [Prod.mk.injEq] at h
        exact ⟨(List.cons_eq_cons.mp h.1.symm).1, h.2.symm⟩
      rw [h1.1, h1.2]
      simp [lookupF]
    · have hh := flatP_head_mem _ h
      obtain ⟨hh2, rest, he, hmem⟩ := hh
      simp only at he
      have hkf : k ∈ keysF fs := by
        injection he with h1 h2
        rw [h1]
        exact hmem
      have hne : k2 ≠ k := by
        intro heq
        exact lookupF_isNone_notmem (heq ▸ hg.1.1) hkf
      simp only [lookupF, if_neg hne]
      exact ih hg.2 h
  | case3 k2 fs ih =>
    rw [goodF_cons] at hg
    simp only [Bool.and_eq_true] at hg
    have := hg.1.2
    rw [goodV.eq_def] at this
    simp at this
  | case4 k2 m2 gs fs ih1 ih2 =>
    rw [goodF_cons] at hg
    simp only [Bool.and_eq_true] at hg
    rw [flatP] at hm
    rcases List.mem_append.mp hm with h | h
    · obtain ⟨qv, hqv, hq⟩ := List.mem_map.mp h
      rw [Prod.mk.injEq] at hq
      have : qv.1 = [] := by
        have := hq.1
        exact (List.cons_eq_cons.mp this).2
      exact absurd this (flatP_path_ne_nil qv hqv)
    · have hh := flatP_head_mem _ h
      obtain ⟨hh2, rest, he, hmem⟩ := hh
      simp only at he
      have hkf : k ∈ keysF fs := by
        injection he with h1 h2
        rw [h1]
        exact hmem
      have hne : k2 ≠ k := by
        intro heq
        exact lookupF_isNone_notmem (heq ▸ hg.1.1) hkf
      simp only [lookupF, if_neg hne]
      exact ih2 hg.2 h
  | case5 k2 xs fs ih =>
    rw [goodF_cons] at hg
    simp only [Bool.and_eq_true] at hg
    have := hg.1.2
    rw [goodV.eq_def] at this
    simp at this

theorem flatP_keys_iff {fs : Fields} (hg : goodF fs = true) (k : String) :
    k ∈ keysF fs ↔ ∃ q v, (k :: q, v) ∈ flatP fs := by
  constructor
  · intro hk
    have hsome : (lookupF fs k).isSome := lookupF_isSome_iff.mpr hk
    rcases hl : lookupF fs k with _ | w
    · rw [hl] at hsome
      cases hsome
    · have hgv := goodF_lookup hg hl
      cases w with
      | scalar s => exact ⟨[], s, flatP_mem_scalar hl⟩
      | null =>
        rw [goodV.eq_def] at hgv
        simp at hgv
      | res m ts =>
        rw [goodV_res] at hgv
        simp only [Bool.and_eq_true] at hgv
        have hts : ts ≠ [] := by
          intro he
          rw [he] at hgv
          simp [List.isEmpty] at hgv
        have hne := goodF_ne_nil_flatP hgv.2 hts
        rcases hflat : flatP ts with _ | ⟨pv, pvs⟩
        · exact absurd hflat hne
        · have hmem : pv ∈ subPairs k (flatP fs) := by
            rw [subPairs_flatP_res hg hl, hflat]
            exact List.mem_cons_self _ _
          have := mem_of_mem_subPairs pv hmem
          exact ⟨pv.1, pv.2, this⟩
      | list xs =>
        rw [goodV.eq_def] at hgv
        simp at hgv
  · intro ⟨q, v, hm⟩
    obtain ⟨hh, rest, he, hmem⟩ := flatP_head_mem _ hm
    simp only at he
    injection he with h1 h2
    rw [h1]
    exact hmem

theorem sizeOf_val_of_mem {fs : Fields} {k : String} {v : Val} (h : (k, v) ∈ fs) :
    sizeOf v < sizeOf fs := by
  induction fs with
  | nil => cases h
  | cons kv fs ih =>
    rcases List.mem_cons.mp h with h | h
    · cases h
      simp only [List.cons.sizeOf_spec, Prod.mk.sizeOf_spec]
      omega
    · have := ih h
      simp only [List.cons.sizeOf_spec]
      omega

theorem eqvV_scalar (a c : SVal) : eqvV (.scalar a) (.scalar c) = decide (a = c) := by
  rw [eqvV.eq_def]

theorem eqvV_res (m m2 : RMeta) (ts ts2 : Fields) :
    eqvV (.res m ts) (.res m2 ts2) = (decide (m = m2) && eqvF ts ts2) := by
  rw [eqvV.eq_def]
  simp [eqvF, Bool.and_assoc]

theorem coveredBy_of_forall {gs : Fields} (fs : Fields)
    (h : ∀ k v, (k, v) ∈ fs → ∃ w, lookupF gs k = some w ∧ eqvV v w = true) :
    coveredBy fs gs = true := by
  induction fs with
  | nil => rw [coveredBy.eq_def]
  | cons kv fs ih =>
    obtain ⟨k, v⟩ := kv
    obtain ⟨w, hw, he⟩ := h k v (List.mem_cons_self _ _)
    have hrest := ih (fun k2 v2 hm => h k2 v2 (List.mem_cons_of_mem _ hm))
    rw [coveredBy.eq_def]
    simp only [Bool.and_eq_true]
    refine ⟨?_, hrest⟩
    split
    · next w2 heq =>
      rw [hw] at heq
      injection heq with heq2
      subst heq2
      exact he
    · next heq =>
      rw [hw] at heq
      cases heq

theorem perm_eqvF_aux : ∀ (n : Nat) (u1 u2 : Fields), sizeOf u1 + sizeOf u2 ≤ n →
    goodF u1 = true → goodF u2 = true → (flatP u1).Perm (flatP u2) → eqvF u1 u2 = true := by
  intro n
  induction n with
  | zero =>
    intro u1 u2 hsz _ _ _
    exfalso
    have h1 : 0 < sizeOf u1 := by
      cases u1 with
      | nil => simp
      | cons a l =>
        simp only [List.cons.sizeOf_spec]
        omega
    omega
  | succ n ihn =>
    intro u1 u2 hsz hg1 hg2 hperm
    have hkeys : ∀ k, k ∈ keysF u1 ↔ k ∈ keysF u2 := by
      intro k
      rw [flatP_keys_iff hg1, flatP_keys_iff hg2]
      constructor
      · rintro ⟨q, v, hm⟩
        exact ⟨q, v, hperm.mem_iff.mp hm⟩
      · rintro ⟨q, v, hm⟩
        exact ⟨q, v, hperm.mem_iff.mpr hm⟩
    have hkperm : (keysF u1).Perm (keysF u2) :=
      (List.perm_ext_iff_of_nodup (goodF_nodup_keys hg1) (goodF_nodup_keys hg2)).mpr hkeys
    have hlen : u1.length = u2.length := by
      have h2 := hkperm.length_eq
      simpa [keysF] using h2
    have hcov : ∀ (v1 v2 : Fields), sizeOf v1 + sizeOf v2 ≤ n + 1 →
        goodF v1 = true → goodF v2 = true → (flatP v1).Perm (flatP v2) →
        coveredBy v1 v2 = true := by
      intro v1 v2 hsz2 hgg1 hgg2 hp
      apply coveredBy_of_forall
      intro k v hm
      have hl1 : lookupF v1 k = some v := mem_lookupF_of_nodup (goodF_nodup_keys hgg1) hm
      have hgv := goodF_lookup hgg1 hl1
      cases v with
      | scalar s =>
        have hmem : ([k], s) ∈ flatP v2 := hp.mem_iff.mp (flatP_mem_scalar hl1)
        refine ⟨.scalar s, flatP_scalar_lookup hgg2 hmem, ?_⟩
        rw [eqvV_scalar]
        simp
      | null =>
        rw [goodV.eq_def] at hgv
        simp at hgv
      | list xs =>
        rw [goodV.eq_def] at hgv
        simp at hgv
      | res m ts =>
        rw [goodV_res] at hgv
        simp only [Bool.and_eq_true] at hgv
        have hsub1 : subPairs k (flatP v1) = flatP ts := subPairs_flatP_res hgg1 hl1
        have hsubp : (subPairs k (flatP v1)).Perm (subPairs k (flatP v2)) :=
          hp.filterMap _
        have hts : ts ≠ [] := by
          intro he
          rw [he] at hgv
          simp [List.isEmpty] at hgv
        have hflat_ne := goodF_ne_nil_flatP hgv.2 hts
        have hk2 : k ∈ keysF v2 := by
          rcases hflat : flatP ts with _ | ⟨pv, pvs⟩
          · exact absurd hflat hflat_ne
          · have hmem2 : pv ∈ subPairs k (flatP v2) := by
              apply hsubp.mem_iff.mp
              rw [hsub1, hflat]
              exact List.mem_cons_self _ _
            have hmem3 := mem_of_mem_subPairs pv hmem2
            obtain ⟨hh, rest, he, hmemk⟩ := flatP_head_mem _ hmem3
            simp only at he
            injection he with h1 h2
            rw [h1]
            exact hmemk
        have hl2some : (lookupF v2 k).isSome := lookupF_isSome_iff.mpr hk2
        rcases hl2 : lookupF v2 k with _ | w
        · rw [hl2] at hl2some
          cases hl2some
        · have hgw := goodF_lookup hgg2 hl2
          cases w with
          | scalar s2 =>
            exfalso
            have hsub2 : subPairs k (flatP v2) = [([], s2)] :=
              subPairs_flatP_scalar hgg2 hl2
            have hmem4 : (([] : List String), s2) ∈ flatP ts := by
              rw [← hsub1]
              apply hsubp.mem_iff.mpr
              rw [hsub2]
              exact List.mem_cons_self _ _
            exact flatP_path_ne_nil _ hmem4 rfl
          | null =>
            rw [goodV.eq_def] at hgw
            simp at hgw
          | list ys =>
            rw [goodV.eq_def] at hgw
            simp at hgw
          | res m2 ts2 =>
            rw [goodV_res] at hgw
            simp only [Bool.and_eq_true] at hgw
            have hsub2 : subPairs k (flatP v2) = flatP ts2 :=
              subPairs_flatP_res hgg2 hl2
            have hp2 : (flatP ts).Perm (flatP ts2) := by
              rw [← hsub1, ← hsub2]
              exact hsubp
            have hs1 : sizeOf (Val.res m ts) < sizeOf v1 := sizeOf_val_of_mem hm
            have hs2 : sizeOf (Val.res m2 ts2) < sizeOf v2 :=
              sizeOf_val_of_mem (lookupF_mem hl2)
            have hsts : sizeOf ts < sizeOf (Val.res m ts) := by
              simp only [Val.res.sizeOf_spec]
              omega
            have hsts2 : sizeOf ts2 < sizeOf (Val.res m2 ts2) := by
              simp only [Val.res.sizeOf_spec]
              omega
            have heqv := ihn ts ts2 (by omega) hgv.2 hgw.2 hp2
            refine ⟨.res m2 ts2, rfl, ?_⟩
            rw [eqvV_res]
            have hm1 : m = defaultMeta := by
              have := hgv.1.1
              simpa using this
            have hm2 : m2 = defaultMeta := by
              have := hgw.1.1
              simpa using this
            rw [hm1, hm2, heqv]
            simp
    have hc1 := hcov u1 u2 hsz hg1 hg2 hperm
    have hc2 := hcov u2 u1 (by omega) hg2 hg1 hperm.symm
    simp [eqvF, hlen, hc1, hc2]

theorem flatP_perm_eqvF {u1 u2 : Fields} (hg1 : goodF u1 = true)
    (hg2 : goodF u2 = true) (hperm : (flatP u1).Perm (flatP u2)) :
    eqvF u1 u2 = true :=
  perm_eqvF_aux (sizeOf u1 + sizeOf u2) u1 u2 (Nat.le_refl _) hg1 hg2 hperm

theorem goodF_nil : goodF ([] : Fields) = true := by
  rw [goodF.eq_def]

theorem isNone_eq_none {α : Type} {o : Option α} (h : o.isNone = true) : o = none := by
  cases o with
  | none => rfl
  | some a => simp [Option.isNone] at h

theorem isEmpty_false_of_ne_nil {α : Type} {l : List α} (h : l ≠ []) :
    l.isEmpty = false := by
  cases l with
  | nil => exact absurd rfl h
  | cons a l => rfl

theorem lookupF_append (as bs : Fields) (k : String) :
    lookupF (as ++ bs) k = (lookupF as k).or (lookupF bs k) := by
  induction as with
  | nil => simp [lookupF, Option.or]
  | cons kv as ih =>
    obtain ⟨k2, w⟩ := kv
    by_cases hk : k2 = k
    · simp [lookupF, hk, Option.or]
    · simp [lookupF, hk, ih]

theorem goodF_append_single {k : String} {w : Val} (hw : goodV w = true) :
    ∀ gs : Fields, goodF gs = true → lookupF gs k = none →
      goodF (gs ++ [(k, w)]) = true := by
  intro gs
  induction gs with
  | nil =>
    intro _ _
    simp only [List.nil_append]
    rw [goodF_cons]
    simp [lookupF, hw, goodF_nil]
  | cons kv gs ih =>
    intro hg hl
    obtain ⟨k2, w2⟩ := kv
    rw [goodF_cons] at hg
    simp only [Bool.and_eq_true] at hg
    simp only [lookupF] at hl
    have hne : ¬ (k2 = k) := by
      intro he
      rw [if_pos he] at hl
      cases hl
    rw [if_neg hne] at hl
    rw [List.cons_append, goodF_cons]
    have h1 : lookupF (gs ++ [(k, w)]) k2 = none := by
      rw [lookupF_append, isNone_eq_none hg.1.1]
      have h4 : lookupF [(k, w)] k2 = none := by
        simp only [lookupF]
        rw [if_neg]
        intro he
        exact hne he.symm
      rw [h4]
      rfl
    rw [h1]
    simp [hg.1.2, ih hg.2 hl]

theorem freshPath_ne_nil (p : List String) (h : p ≠ []) (v : SVal) :
    freshPath p v ≠ [] := by
  cases p with
  | nil => exact absurd rfl h
  | cons k rest =>
    cases rest with
    | nil => simp [freshPath]
    | cons k2 rest2 => simp [freshPath]

theorem freshPath_good : ∀ {p : List String}, p ≠ [] → ∀ (v : SVal),
    goodF (freshPath p v) = true := by
  intro p
  induction p with
  | nil => intro h; exact absurd rfl h
  | cons k rest ih =>
    intro _ v
    cases rest with
    | nil =>
      rw [freshPath, goodF_cons]
      simp [lookupF, goodV_scalar, goodF_nil]
    | cons k2 rest2 =>
      rw [freshPath, goodF_cons, goodV_res]
      have h1 := ih (by simp) v
      have h2 := freshPath_ne_nil (k2 :: rest2) (by simp) v
      simp [lookupF, goodF_nil, h1, isEmpty_false_of_ne_nil h2]

theorem keysF_replaceF (k : String) (v2 : Val) :
    ∀ gs : Fields, keysF (replaceF gs k v2) = keysF gs := by
  intro gs
  induction gs with
  | nil => rfl
  | cons kv gs ih =>
    obtain ⟨k2, w⟩ := kv
    rw [replaceF]
    by_cases hk : k2 = k
    · rw [if_pos hk, hk]
      rfl
    · rw [if_neg hk]
      simp [keysF] at ih ⊢
      exact ih

theorem goodF_replaceF {k : String} {v2 : Val} (hv : goodV v2 = true) :
    ∀ gs : Fields, goodF gs = true → goodF (replaceF gs k v2) = true := by
  intro gs
  induction gs with
  | nil =>
    intro _
    rw [replaceF]
    exact goodF_nil
  | cons kv gs ih =>
    intro hg
    obtain ⟨k2, w⟩ := kv
    rw [goodF_cons] at hg
    simp only [Bool.and_eq_true] at hg
    rw [replaceF]
    by_cases hk : k2 = k
    · rw [if_pos hk, goodF_cons, ← hk]
      simp [hg.1.1, hv, hg.2]
    · rw [if_neg hk, goodF_cons]
      have h1 : lookupF (replaceF gs k v2) k2 = none := by
        rw [lookupF_eq_none_iff, keysF_replaceF]
        rw [← lookupF_eq_none_iff]
        exact isNone_eq_none hg.1.1
      rw [h1]
      simp [hg.1.2, ih hg.2]

theorem lookupF_decomp {gs : Fields} {k : String} {w : Val}
    (h : lookupF gs k = some w) :
    ∃ pre post, gs = pre ++ (k, w) :: post ∧
      ∀ v2, replaceF gs k v2 = pre ++ (k, v2) :: post := by
  induction gs with
  | nil => simp [lookupF] at h
  | cons kv gs ih =>
    obtain ⟨k2, w2⟩ := kv
    simp only [lookupF] at h
    by_cases hk : k2 = k
    · rw [if_pos hk] at h
      injection h with h2
      refine ⟨[], gs, ?_, ?_⟩
      · rw [hk, h2]
        simp
      · intro v2
        simp [replaceF, hk]
    · rw [if_neg hk] at h
      obtain ⟨pre, post, hd, hr⟩ := ih h
      refine ⟨(k2, w2) :: pre, post, ?_, ?_⟩
      · rw [List.cons_append, ← hd]
      · intro v2
        simp [replaceF, hk, hr v2]

theorem pathDisj_cons_inv {k : String} {p q : List String}
    (h : pathDisj (k :: p) (k :: q)) : pathDisj p q := by
  constructor
  · intro hp
    exact h.1 (List.cons_prefix_cons.mpr ⟨rfl, hp⟩)
  · intro hp
    exact h.2 (List.cons_prefix_cons.mpr ⟨rfl, hp⟩)

theorem insertPath_good : ∀ (p : List String) (gs : Fields) (v : SVal),
    goodF gs = true → p ≠ [] →
    (∀ q ∈ (flatP gs).map Prod.fst, pathDisj q p) →
    ∃ gs2, insertPath gs p v = .ok gs2 ∧ goodF gs2 = true ∧
      (flatP gs2).Perm ((p, v) :: flatP gs) := by
  intro p
  induction p with
  | nil =>
    intro gs v _ hne _
    exact absurd rfl hne
  | cons k p2 ih =>
    intro gs v hg _ hdisj
    cases p2 with
    | nil =>
      rcases hl : lookupF gs k with _ | w
      · refine ⟨gs ++ [(k, .scalar v)], ?_, ?_, ?_⟩
        · simp [insertPath, hl]
        · exact goodF_append_single (goodV_scalar v) gs hg hl
        · rw [flatP_append]
          have hone : flatP [(k, .scalar v)] = [([k], v)] := by
            rw [flatP]
            simp [flatP]
          rw [hone]
          exact List.perm_append_singleton _ _
      · exfalso
        have hk := lookupF_mem_keys hl
        obtain ⟨q, v2, hm⟩ := (flatP_keys_iff hg k).mp hk
        have hd := hdisj (k :: q) (List.mem_map.mpr ⟨(k :: q, v2), hm, rfl⟩)
        exact hd.2 ⟨q, rfl⟩
    | cons k2 rest =>
      rcases hl : lookupF gs k with _ | w
      · refine ⟨gs ++ [(k, .res defaultMeta (freshPath (k2 :: rest) v))], ?_, ?_, ?_⟩
        · simp [insertPath, hl]
        · apply goodF_append_single ?_ gs hg hl
          rw [goodV_res]
          have h1 : goodF (freshPath (k2 :: rest) v) = true := freshPath_good (by simp) v
          have h2 : freshPath (k2 :: rest) v ≠ [] := freshPath_ne_nil _ (by simp) v
          simp [h1, isEmpty_false_of_ne_nil h2]
        · rw [flatP_append]
          have hone : flatP [(k, .res defaultMeta (freshPath (k2 :: rest) v))] =
              [(k :: k2 :: rest, v)] := by
            rw [flatP, flatP_freshPath v (by simp)]
            simp [flatP]
          rw [hone]
          exact List.perm_append_singleton _ _
      · cases w with
        | scalar s =>
          exfalso
          have hm := flatP_mem_scalar hl
          have hd := hdisj [k] (List.mem_map.mpr ⟨([k], s), hm, rfl⟩)
          exact hd.1 ⟨k2 :: rest, rfl⟩
        | null =>
          exfalso
          have hgw := goodF_lookup hg hl
          rw [goodV.eq_def] at hgw
          simp at hgw
        | list xs =>
          exfalso
          have hgw := goodF_lookup hg hl
          rw [goodV.eq_def] at hgw
          simp at hgw
        | res m ts =>
          have hgw := goodF_lookup hg hl
          rw [goodV_res] at hgw
          simp only [Bool.and_eq_true] at hgw
          have hsub : subPairs k (flatP gs) = flatP ts := subPairs_flatP_res hg hl
          have hdisj2 : ∀ q ∈ (flatP ts).map Prod.fst, pathDisj q (k2 :: rest) := by
            intro q hq
            obtain ⟨pv, hpv, hq2⟩ := List.mem_map.mp hq
            have hpv2 : pv ∈ subPairs k (flatP gs) := by
              rw [hsub]
              exact hpv
            have hmem := mem_of_mem_subPairs pv hpv2
            have hd := hdisj (k :: pv.1)
              (List.mem_map.mpr ⟨(k :: pv.1, pv.2), hmem, rfl⟩)
            rw [← hq2]
            exact pathDisj_cons_inv hd
          obtain ⟨ts2, hins, hg2, hperm2⟩ := ih ts v hgw.2 (by simp) hdisj2
          refine ⟨replaceF gs k (.res m ts2), ?_, ?_, ?_⟩
          · simp [insertPath, hl, hins, Except.map]
          · apply goodF_replaceF ?_ gs hg
            rw [goodV_res]
            have hm2 : m = defaultMeta := by simpa using hgw.1.1
            have hne2 : ts2 ≠ [] := by
              intro he
              rw [he] at hperm2
              have hlen := hperm2.length_eq
              simp [flatP] at hlen
            simp [hm2, hg2, isEmpty_false_of_ne_nil hne2]
          · obtain ⟨pre, post, hdecomp, hrepl⟩ := lookupF_decomp hl
            rw [hrepl, flatP_append, flatP]
            have hflatgs : flatP gs =
                flatP pre ++ ((flatP ts).map (fun pv => (k :: pv.1, pv.2)) ++ flatP post) := by
              conv_lhs => rw [hdecomp]
              rw [flatP_append, flatP]
            rw [hflatgs]
            have s2 : (flatP pre ++ ((flatP ts2).map (fun pv => (k :: pv.1, pv.2)) ++ flatP post)).Perm
                (flatP pre ++ (((k :: k2 :: rest, v) :: (flatP ts).map (fun pv => (k :: pv.1, pv.2))) ++ flatP post)) := by
              apply List.Perm.append_left
              apply List.Perm.append_right
              have s1 := hperm2.map (fun pv => (k :: pv.1, pv.2))
              simpa using s1
            refine s2.trans ?_
            have s3 : flatP pre ++ (((k :: k2 :: rest, v) :: (flatP ts).map (fun pv => (k :: pv.1, pv.2))) ++ flatP post)
                = flatP pre ++ ((k :: k2 :: rest, v) :: ((flatP ts).map (fun pv => (k :: pv.1, pv.2)) ++ flatP post)) := by
              simp
            rw [s3]
            exact List.perm_middle

theorem insertAll_good : ∀ (ps : List (List String × SVal)) (gs : Fields),
    goodF gs = true →
    (∀ pv ∈ ps, pv.1 ≠ []) →
    List.Pairwise (fun a b => pathDisj a.1 b.1) ps →
    (∀ pv ∈ ps, ∀ q ∈ (flatP gs).map Prod.fst, pathDisj q pv.1) →
    ∃ gs2, insertAll gs ps = .ok gs2 ∧ goodF gs2 = true ∧
      (flatP gs2).Perm (ps ++ flatP gs) := by
  intro ps
  induction ps with
  | nil =>
    intro gs hg _ _ _
    exact ⟨gs, rfl, hg, by simp⟩
  | cons pv ps ih =>
    intro gs hg hnn hpw hdisj
    obtain ⟨p, v⟩ := pv
    obtain ⟨gs2, hins, hg2, hperm⟩ := insertPath_good p gs v hg
      (hnn (p, v) (List.mem_cons_self _ _))
      (fun q hq => hdisj (p, v) (List.mem_cons_self _ _) q hq)
    have hdisj2 : ∀ pv2 ∈ ps, ∀ q ∈ (flatP gs2).map Prod.fst, pathDisj q pv2.1 := by
      intro pv2 hpv2 q hq
      obtain ⟨qv, hqv, hq2⟩ := List.mem_map.mp hq
      have hqv2 : qv ∈ ((p, v) :: flatP gs) := hperm.mem_iff.mp hqv
      rcases List.mem_cons.mp hqv2 with h | h
      · rw [← hq2, h]
        exact (List.pairwise_cons.mp hpw).1 pv2 hpv2
      · exact hdisj pv2 (List.mem_cons_of_mem _ hpv2) q
          (by rw [← hq2]; exact List.mem_map.mpr ⟨qv, h, rfl⟩)
    obtain ⟨gs3, hins3, hg3, hperm3⟩ := ih gs2 hg2
      (fun pv2 h => hnn pv2 (List.mem_cons_of_mem _ h))
      (List.pairwise_cons.mp hpw).2 hdisj2
    refine ⟨gs3, ?_, hg3, ?_⟩
    · rw [insertAll, hins]
      exact hins3
    · refine hperm3.trans ?_
      have h4 : (ps ++ ((p, v) :: flatP gs)).Perm ((p, v) :: (ps ++ flatP gs)) :=
        List.perm_middle
      refine List.Perm.trans ?_ h4
      exact List.Perm.append_left ps hperm

theorem pathDisj_ne {p q : List String} (h : pathDisj p q) : p ≠ q := by
  intro he
  apply h.1
  rw [he]

theorem flattenFields_fst_nodup {na : List SVal} {dchars : List Char} {fs : Fields}
    (hs : tableSafeF na dchars fs = true) :
    ((flattenFields na fs).map Prod.fst).Nodup := by
  have hp := flattenFields_pairwise hs
  have h2 : List.Pairwise (fun a b => Prod.fst a ≠ Prod.fst b) (flattenFields na fs) :=
    hp.imp (fun h => pathDisj_ne h)
  exact List.pairwise_map.mpr h2

theorem flattenFields_cell_not_na {na : List SVal} {fs : Fields} :
    ∀ pc ∈ flattenFields na fs, ∀ v, pc.2 = some v → v ∉ na := by
  induction fs using flattenFields.induct na with
  | case1 => simp [flattenFields]
  | case2 k s fs ih =>
    intro pc hpc v hv
    rw [flattenFields] at hpc
    rcases List.mem_cons.mp hpc with h | h
    · rw [h] at hv
      simp only at hv
      split at hv
      · cases hv
      · injection hv with h2
        rw [← h2]
        assumption
    · exact ih pc h v hv
  | case3 k fs ih =>
    intro pc hpc v hv
    rw [flattenFields] at hpc
    rcases List.mem_cons.mp hpc with h | h
    · rw [h] at hv
      cases hv
    · exact ih pc h v hv
  | case4 k m gs fs ih1 ih2 =>
    intro pc hpc v hv
    rw [flattenFields] at hpc
    rcases List.mem_append.mp hpc with h | h
    · obtain ⟨qc, hqc, he⟩ := List.mem_map.mp h
      have hv2 : qc.2 = some v := by
        rw [← he] at hv
        exact hv
      exact ih1 qc hqc v hv2
    · exact ih2 pc h v hv
  | case5 k xs fs ih =>
    intro pc hpc v hv
    rw [flattenFields] at hpc
    exact ih pc hpc v hv

theorem flatP_normalize_pairwise {na : List SVal} {dchars : List Char} {fs : Fields}
    (hs : tableSafeF na dchars fs = true) :
    List.Pairwise (fun a b => pathDisj a.1 b.1) (flatP (normalizeFields na fs)) := by
  rw [← flattenFields_filterMap_eq]
  apply List.Pairwise.filterMap _ ?_ (flattenFields_pairwise hs)
  intro a a2 r b hb b2 hb2
  simp only [Option.mem_def, Option.map_eq_some'] at hb hb2
  obtain ⟨v, hv, hbv⟩ := hb
  obtain ⟨v2, hv2, hbv2⟩ := hb2
  rw [← hbv, ← hbv2]
  exact r

theorem cellAt_some_mem {rp : List (List String × Option SVal)} {p : List String}
    {v : SVal} (h : cellAt rp p = some v) : (p, some v) ∈ rp := by
  induction rp with
  | nil => simp [cellAt] at h
  | cons qc rp ih =>
    obtain ⟨q, c⟩ := qc
    simp only [cellAt] at h
    by_cases he : q = p
    · rw [if_pos he] at h
      exact List.mem_cons.mpr (Or.inl (by rw [he, h]))
    · rw [if_neg he] at h
      exact List.mem_cons_of_mem _ (ih h)

theorem mem_cellAt_of_nodup {rp : List (List String × Option SVal)}
    (hn : (rp.map Prod.fst).Nodup) {p : List String} {c : Option SVal}
    (hm : (p, c) ∈ rp) : cellAt rp p = c := by
  induction rp with
  | nil => cases hm
  | cons qc rp ih =>
    obtain ⟨q, c2⟩ := qc
    simp only [List.map_cons, List.nodup_cons] at hn
    rcases List.mem_cons.mp hm with h | h
    · injection h with h1 h2
      simp only [cellAt]
      rw [if_pos h1.symm, ← h2]
    · have hne : ¬ q = p := by
        intro he
        apply hn.1
        rw [he]
        exact List.mem_map.mpr ⟨(p, c), h, rfl⟩
      simp only [cellAt]
      rw [if_neg hne]
      exact ih hn.2 h

theorem step_fst {na : List SVal} {rp : List (List String × Option SVal)}
    {q : List String} {b : List String × SVal}
    (h : rowStep na rp q = some b) : b.1 = q := by
  rw [rowStep] at h
  rcases hc : cellAt rp q with _ | w
  · rw [hc] at h
    cases h
  · rw [hc] at h
    simp only at h
    split at h
    · cases h
    · injection h with h1
      rw [← h1]

theorem ps_mem_iff {na : List SVal} (rp : List (List String × Option SVal))
    (colsSeg : List (List String))
    (hnodup_rp : (rp.map Prod.fst).Nodup)
    (hcell_na : ∀ pc ∈ rp, ∀ v, pc.2 = some v → v ∉ na)
    (hsub : ∀ p ∈ rp.map Prod.fst, p ∈ colsSeg)
    (p : List String) (v : SVal) :
    (p, v) ∈ colsSeg.filterMap (rowStep na rp) ↔ (p, some v) ∈ rp := by
  constructor
  · intro h
    obtain ⟨q, hq, hf⟩ := List.mem_filterMap.mp h
    rw [rowStep] at hf
    rcases hc : cellAt rp q with _ | w
    · rw [hc] at hf
      cases hf
    · rw [hc] at hf
      simp only at hf
      split at hf
      · cases hf
      · injection hf with h1
        injection h1 with h2 h3
        rw [← h2, ← h3]
        exact cellAt_some_mem hc
  · intro h
    have hc : cellAt rp p = some v := mem_cellAt_of_nodup hnodup_rp h
    have hna : v ∉ na := hcell_na (p, some v) h v rfl
    apply List.mem_filterMap.mpr
    refine ⟨p, hsub p (List.mem_map.mpr ⟨(p, some v), h, rfl⟩), ?_⟩
    simp [rowStep, hc, hna]

theorem tableSafeR_fields {na : List SVal} {dchars : List Char} {t : Resource}
    (h : tableSafeR na dchars t = true) : tableSafeF na dchars t.fields = true := by
  simp only [tableSafeR, Bool.and_eq_true] at h
  exact h.2

theorem tableSafeR_meta {na : List SVal} {dchars : List Char} {t : Resource}
    (h : tableSafeR na dchars t = true) : t.meta = defaultMeta := by
  simp only [tableSafeR, Bool.and_eq_true] at h
  simpa using h.1

theorem buildRowAux_eq_insertAll {na : List SVal} {delim : String} {d0 : Char}
    {drest : List Char} (hd : delim.data = d0 :: drest)
    (rp : List (List String × Option SVal)) :
    ∀ (cs : List (List String)) (fs : Fields),
    (∀ p ∈ cs, p ≠ []) →
    (∀ p ∈ cs, ∀ seg ∈ p, ∀ ch ∈ seg.data, ¬ ch ∈ delim.data) →
    buildRowAux na delim fs (cs.map (fun p => (joinSegs delim p, cellAt rp p))) =
      insertAll fs (cs.filterMap (rowStep na rp)) := by
  intro cs
  induction cs with
  | nil =>
    intro fs _ _
    rfl
  | cons p cs ih =>
    intro fs hne hch
    rw [List.map_cons, buildRowAux]
    rcases hc : cellAt rp p with _ | v
    · rw [List.filterMap_cons_none (by simp [rowStep, hc])]
      simp only [insertCell, Except.bind, bind]
      exact ih fs (fun q hq => hne q (List.mem_cons_of_mem _ hq))
        (fun q hq => hch q (List.mem_cons_of_mem _ hq))
    · by_cases hv : v ∈ na
      · rw [List.filterMap_cons_none (by simp [rowStep, hc, hv])]
        simp only [insertCell, if_pos hv, Except.bind, bind]
        exact ih fs (fun q hq => hne q (List.mem_cons_of_mem _ hq))
          (fun q hq => hch q (List.mem_cons_of_mem _ hq))
      · have hstep : rowStep na rp p = some (p, v) := by
          simp [rowStep, hc, hv]
        rw [List.filterMap_cons_some hstep]
        have hsplit : splitFull delim (joinSegs delim p) = p :=
          splitFull_join hd p (hne p (List.mem_cons_self _ _))
            (fun seg hs ch hcc => hch p (List.mem_cons_self _ _) seg hs ch hcc)
        simp only [insertCell, if_neg hv, hsplit]
        rw [insertAll]
        rcases hins : insertPath fs p v with e | gs2
        · simp [Except.bind, bind, hins]
        · simp only [hins, Except.bind, bind]
          exact ih gs2 (fun q hq => hne q (List.mem_cons_of_mem _ hq))
            (fun q hq => hch q (List.mem_cons_of_mem _ hq))

theorem buildRow_ok {na : List SVal} {delim : String} {d0 : Char} {drest : List Char}
    (hd : delim.data = d0 :: drest)
    (colsSeg : List (List String)) (hnodup : colsSeg.Nodup)
    (hcs_ne : ∀ p ∈ colsSeg, p ≠ [])
    (hcs_ch : ∀ p ∈ colsSeg, ∀ seg ∈ p, ∀ ch ∈ seg.data, ¬ ch ∈ delim.data)
    (t : Resource) (hsafe : tableSafeR na delim.data t = true)
    (hsub : ∀ p ∈ (flattenFields na t.fields).map Prod.fst, p ∈ colsSeg) :
    ∃ fs2, buildRow na delim (colsSeg.map (joinSegs delim))
        (colsSeg.map (cellAt (flattenFields na t.fields))) = .ok ⟨defaultMeta, fs2⟩ ∧
      resourceEquiv ⟨defaultMeta, fs2⟩ (normalizeR na t) = true := by
  have htsf : tableSafeF na delim.data t.fields = true := tableSafeR_fields hsafe
  have hrp_nodup : ((flattenFields na t.fields).map Prod.fst).Nodup :=
    flattenFields_fst_nodup htsf
  have hmem := ps_mem_iff (flattenFields na t.fields) colsSeg hrp_nodup
    flattenFields_cell_not_na hsub
  have hps_ne : ∀ pv ∈ colsSeg.filterMap (rowStep na (flattenFields na t.fields)),
      pv.1 ≠ [] := by
    intro pv hpv
    obtain ⟨q, hq, hf⟩ := List.mem_filterMap.mp hpv
    rw [step_fst hf]
    exact hcs_ne q hq
  have hps_nodup : (colsSeg.filterMap (rowStep na (flattenFields na t.fields))).Nodup := by
    apply List.Nodup.filterMap ?_ hnodup
    intro a a2 b hb hb2
    have h1 := step_fst (Option.mem_def.mp hb)
    have h2 := step_fst (Option.mem_def.mp hb2)
    rw [← h1]
    exact h2
  have hgood_norm : goodF (normalizeFields na t.fields) = true := goodF_normalize htsf
  have hflat_pw := flatP_normalize_pairwise htsf
  have hflat_nodup : (flatP (normalizeFields na t.fields)).Nodup := by
    apply hflat_pw.imp
    intro a b h he
    exact pathDisj_ne h (by rw [he])
  have hperm_ps : (colsSeg.filterMap (rowStep na (flattenFields na t.fields))).Perm
      (flatP (normalizeFields na t.fields)) := by
    rw [List.perm_ext_iff_of_nodup hps_nodup hflat_nodup]
    intro pv
    obtain ⟨p, v⟩ := pv
    rw [hmem p v, ← flattenFields_filterMap_eq]
    constructor
    · intro h
      exact List.mem_filterMap.mpr ⟨(p, some v), h, rfl⟩
    · intro h
      obtain ⟨pc, hpc, hf⟩ := List.mem_filterMap.mp h
      obtain ⟨pc1, pc2⟩ := pc
      simp only [Option.map_eq_some'] at hf
      obtain ⟨w, hw, he⟩ := hf
      injection he with h1 h2
      rw [← h1, ← h2, ← hw]
      exact hpc
  have hpairwise : List.Pairwise (fun a b => pathDisj a.1 b.1)
      (colsSeg.filterMap (rowStep na (flattenFields na t.fields))) :=
    (List.Perm.pairwise_iff (fun h => pathDisj_symm h) hperm_ps).mpr hflat_pw
  obtain ⟨gs2, hins, hg2, hperm2⟩ := insertAll_good
    (colsSeg.filterMap (rowStep na (flattenFields na t.fields))) [] goodF_nil
    hps_ne hpairwise
    (by
      intro pv hpv q hq
      rw [flatP] at hq
      cases hq)
  refine ⟨gs2, ?_, ?_⟩
  · rw [buildRow, List.zip_map']
    rw [buildRowAux_eq_insertAll hd (flattenFields na t.fields) colsSeg [] hcs_ne hcs_ch]
    rw [hins]
    rfl
  · have hperm3 : (flatP gs2).Perm (flatP (normalizeFields na t.fields)) := by
      refine hperm2.trans ?_
      rw [flatP]
      rw [List.append_nil]
      exact hperm_ps
    have heqv := flatP_perm_eqvF hg2 hgood_norm hperm3
    simp only [resourceEquiv, normalizeR, Bool.and_eq_true]
    constructor
    · simp [tableSafeR_meta hsafe]
    · exact heqv

theorem buildRows_ok {na : List SVal} {delim : String} {d0 : Char} {drest : List Char}
    (hd : delim.data = d0 :: drest)
    (colsSeg : List (List String)) (hnodup : colsSeg.Nodup)
    (hcs_ne : ∀ p ∈ colsSeg, p ≠ [])
    (hcs_ch : ∀ p ∈ colsSeg, ∀ seg ∈ p, ∀ ch ∈ seg.data, ¬ ch ∈ delim.data) :
    ∀ trees : List Resource,
    (∀ t ∈ trees, tableSafeR na delim.data t = true) →
    (∀ t ∈ trees, ∀ p ∈ (flattenFields na t.fields).map Prod.fst, p ∈ colsSeg) →
    ∃ out, buildRows na delim (colsSeg.map (joinSegs delim))
        (trees.map (fun t => colsSeg.map (cellAt (flattenFields na t.fields)))) = .ok out ∧
      List.Forall₂ (fun o t => resourceEquiv o (normalizeR na t) = true) out trees := by
  intro trees
  induction trees with
  | nil =>
    intro _ _
    exact ⟨[], rfl, List.Forall₂.nil⟩
  | cons t trees ih =>
    intro hsafe hsub
    obtain ⟨fs2, hrow, hequiv⟩ := buildRow_ok hd colsSeg hnodup hcs_ne hcs_ch t
      (hsafe t (List.mem_cons_self _ _)) (hsub t (List.mem_cons_self _ _))
    obtain ⟨out, hrows, hfa⟩ := ih
      (fun t2 h => hsafe t2 (List.mem_cons_of_mem _ h))
      (fun t2 h => hsub t2 (List.mem_cons_of_mem _ h))
    refine ⟨⟨defaultMeta, fs2⟩ :: out, ?_, List.Forall₂.cons hequiv hfa⟩
    rw [List.map_cons, buildRows, hrow, hrows]
    rfl

theorem roundTrip_universal (trees : List Resource) (na : List SVal) (delim : String)
    (hne : delim.data ≠ [])
    (hsafe : ∀ t ∈ trees, tableSafeR na delim.data t = true) :
    ∃ out, from_dataframe (as_dataframe trees na delim false false) na delim = .ok out ∧
      List.Forall₂ (fun o t => resourceEquiv o (normalizeR na t) = true) out trees := by
  rcases hd : delim.data with _ | ⟨d0, drest⟩
  · exact absurd hd hne
  have hrw : rowPairs na false false = fun t => flattenFields na t.fields :=
    funext (fun t => rowPairs_false na t)
  have hdf : as_dataframe trees na delim false false =
      ⟨(dedupFirst (trees.flatMap
          (fun t => (flattenFields na t.fields).map (fun pc => pc.1)))).map (joinSegs delim),
       trees.map (fun t =>
         (dedupFirst (trees.flatMap
           (fun t => (flattenFields na t.fields).map (fun pc => pc.1)))).map
             (cellAt (flattenFields na t.fields)))⟩ := by
    unfold as_dataframe
    rw [hrw]
    simp [List.flatMap_map, List.map_map, Function.comp]
  rw [hdf]
  have hmm : ∀ p, p ∈ dedupFirst (trees.flatMap
      (fun t => (flattenFields na t.fields).map (fun pc => pc.1))) ↔
      ∃ t ∈ trees, ∃ pc ∈ flattenFields na t.fields, pc.1 = p := by
    intro p
    rw [dedupFirst_mem, List.mem_flatMap]
    constructor
    · rintro ⟨t, ht, hp⟩
      obtain ⟨pc, hpc, he⟩ := List.mem_map.mp hp
      exact ⟨t, ht, pc, hpc, he⟩
    · rintro ⟨t, ht, pc, hpc, he⟩
      exact ⟨t, ht, List.mem_map.mpr ⟨pc, hpc, he⟩⟩
  have hcs_ne : ∀ p ∈ dedupFirst (trees.flatMap
      (fun t => (flattenFields na t.fields).map (fun pc => pc.1))), p ≠ [] := by
    intro p hp
    obtain ⟨t, ht, pc, hpc, he⟩ := (hmm p).mp hp
    rw [← he]
    exact flattenFields_path_ne_nil pc hpc
  have hcs_ch : ∀ p ∈ dedupFirst (trees.flatMap
      (fun t => (flattenFields na t.fields).map (fun pc => pc.1))),
      ∀ seg ∈ p, ∀ ch ∈ seg.data, ¬ ch ∈ delim.data := by
    intro p hp seg hs ch hc
    obtain ⟨t, ht, pc, hpc, he⟩ := (hmm p).mp hp
    have htf := tableSafeR_fields (hsafe t ht)
    refine flattenFields_chars htf pc hpc seg ?_ ch hc
    rw [he]
    exact hs
  have hsub : ∀ t ∈ trees, ∀ p ∈ (flattenFields na t.fields).map Prod.fst,
      p ∈ dedupFirst (trees.flatMap
        (fun t => (flattenFields na t.fields).map (fun pc => pc.1))) := by
    intro t ht p hp
    obtain ⟨pc, hpc, he⟩ := List.mem_map.mp hp
    exact (hmm p).mpr ⟨t, ht, pc, hpc, he⟩
  obtain ⟨out, hout, hfa⟩ := buildRows_ok hd
    (dedupFirst (trees.flatMap (fun t => (flattenFields na t.fields).map (fun pc => pc.1))))
    (dedupFirst_nodup _) hcs_ne hcs_ch trees hsafe hsub
  refine ⟨out, ?_, hfa⟩
  rw [from_dataframe]
  exact hout

/-- C1: converting a batch of trees to a table with `as_dataframe` and back
with `from_dataframe`, with the same NA sentinels and nesting delimiter,
returns the batch up to field-absence normalization (NA cells become absent
fields, and emptied subtrees disappear), for every batch in the tabular
domain (nonempty delimiter, table-safe trees); and on the spec's concrete
two-tree example the conversion to a table yields exactly the example table
(including column order), the table converts to exactly the two trees, and
the full round trip reproduces the batch exactly. -/
theorem claim1_table_round_trip :
    (∀ (trees : List Resource) (na : List SVal) (delim : String),
      delim.data ≠ [] →
      (∀ t ∈ trees, tableSafeR na delim.data t = true) →
      ∃ out, from_dataframe (as_dataframe trees na delim false false) na delim = .ok out ∧
        List.Forall₂ (fun o t => resourceEquiv o (normalizeR na t) = true) out trees) ∧
    as_dataframe [rEx1, rEx2] [] "." false false = tblEx ∧
    from_dataframe tblEx [] "." = .ok [rEx1, rEx2] ∧
    from_dataframe (as_dataframe [rEx1, rEx2] [] "." false false) [] "." =
      .ok [rEx1, rEx2] := by
  have h1 : as_dataframe [rEx1, rEx2] [] "." false false = tblEx := by
    simp +decide [as_dataframe, rowPairs, flattenFields, metaPairs, sigil, dedupFirst,
      joinSegs, cellAt, rEx1, rEx2, tblEx, List.flatMap]
  have h2 : from_dataframe tblEx [] "." = .ok [rEx1, rEx2] := by
    simp +decide [from_dataframe, buildRows, buildRow, buildRowAux, insertCell, insertPath,
      splitFull, splitChars, freshPath, replaceF, lookupF, rEx1, rEx2, tblEx,
      Except.map, Except.bind, bind]
  refine ⟨roundTrip_universal, h1, h2, ?_⟩
  rw [h1]
  exact h2

/-- Witness for C1: the round-trip theorem applied to the spec's example
batch, whose trees are table-safe for the `.` delimiter and empty NA list. -/
theorem claim1_witness :
    ∃ out, from_dataframe (as_dataframe [rEx1, rEx2] [] "." false false) [] "." = .ok out ∧
      List.Forall₂ (fun o t => resourceEquiv o (normalizeR [] t) = true) out [rEx1, rEx2] :=
  claim1_table_round_trip.1 [rEx1, rEx2] [] "." (by decide)
    (by
      intro t ht
      rcases List.mem_cons.mp ht with h | h
      · rw [h]
        simp +decide [tableSafeR, tableSafeF, tableSafeV, lookupF, rEx1]
      · rcases List.mem_cons.mp h with h2 | h2
        · rw [h2]
          simp +decide [tableSafeR, tableSafeF, tableSafeV, lookupF, rEx2]
        · cases h2)

end NexusForge
